import Mathlib

/-!
# Verification of the Photo-Dir-Formatter repository

Shallow embedding of `src/organize_photos.py` and `src/heic_to_jpg.py`.

The filesystem is modelled as a tree of directory nodes.  A directory holds a
list of immediate files and a list of named subdirectories.  Python string
operations (`str.lower`, `str.endswith`, `os.path.splitext`) are modelled over
the character data of Lean strings.  The external image codec
(`PIL.Image.open` / `save`) is abstracted: each file carries a `convOk` flag
saying whether decoding/encoding that file would succeed, and an abstract
`content` tag standing for its bytes.  Everything else (extension matching,
collision checks, subfolder creation, move semantics, the verification
recount) is translated directly from the source.
-/

namespace PhotoDir

/-- Model of Python `str.lower()` (character-wise lowercasing). -/
def strLower (s : String) : String := ⟨s.data.map Char.toLower⟩

/-- Model of Python `str.endswith(suffix)`. -/
def strEndsWith (s suf : String) : Bool := suf.data.isSuffixOf s.data

/-- Model of Python `str.endswith(tuple_of_suffixes)`. -/
def endsWithAny (s : String) (exts : List String) : Bool :=
  exts.any (fun e => strEndsWith s e)

/-- Index of the last occurrence of a character in a list, if any. -/
def lastIdxOf (c : Char) : List Char → Option Nat
  | [] => none
  | x :: rest =>
    match lastIdxOf c rest with
    | some i => some (i + 1)
    | none => if x = c then some 0 else none

/-- Model of `os.path.splitext(name)[0]` for a plain file name (no path
separators): the extension starts at the last dot, except that a dot with only
dots before it does not start an extension (so `".heic"` has no extension). -/
def splitextBase (n : String) : String :=
  let cs := n.data
  match lastIdxOf '.' cs with
  | none => n
  | some i => if (cs.take i).any (fun c => c ≠ '.') then ⟨cs.take i⟩ else n

/-- `heic_exts = ('.heic', '.heif')` from `process_directory`. -/
def heicExts : List String := [".heic", ".heif"]

/-- `mov_exts = ('.mov',)` from `process_directory`. -/
def movExts : List String := [".mov"]

/-- `mp4_exts = ('.mp4', '.mpg', '.mpeg')` from `process_directory`. -/
def mp4Exts : List String := [".mp4", ".mpg", ".mpeg"]

/-- The category a file name falls into, following the
`if`/`elif` chain of `process_directory` (lines 104-112). -/
inductive Cat : Type where
  | heic : Cat
  | mov : Cat
  | mp4 : Cat
  | none : Cat
deriving DecidableEq, Repr

/-- Classification of one file name, exactly the `if`/`elif` chain over
`entry.name.lower()` in `process_directory`. -/
def classify (n : String) : Cat :=
  if endsWithAny (strLower n) heicExts then Cat.heic
  else if endsWithAny (strLower n) movExts then Cat.mov
  else if endsWithAny (strLower n) mp4Exts then Cat.mp4
  else Cat.none

/-- The reserved-name guard of `process_directory` (lines 73-74):
`folder_name in ['heic', 'mov', 'mp4']` after lowercasing. -/
def reserved (name : String) : Bool :=
  strLower name ∈ ["heic", "mov", "mp4"]

/-- The subfolder a category's files are moved into. -/
def catFolder : Cat → String
  | Cat.heic => "heic"
  | Cat.mov => "mov"
  | Cat.mp4 => "mp4"
  | Cat.none => ""

/-- A file entry: its name, an abstract content tag (standing for its bytes),
and whether the codec would succeed in converting it (abstracting the
`Image.open`/`save` call of the conversion step). -/
structure FileE : Type where
  name : String
  content : Nat
  convOk : Bool
deriving DecidableEq, Repr

mutual
/-- A directory: whether listing it raises `PermissionError` (`denied`), its
immediate files and its immediate named subdirectories. -/
inductive DirNode : Type where
  | node (denied : Bool) (files : List FileE) (subdirs : SubdirList)

/-- The list of named immediate subdirectories of a directory. -/
inductive SubdirList : Type where
  | nil : SubdirList
  | cons (name : String) (d : DirNode) (rest : SubdirList) : SubdirList
end

mutual
/-- Boolean equality on directory trees. -/
def DirNode.beq : DirNode → DirNode → Bool
  | .node a f s, .node a2 f2 s2 => a == a2 && f == f2 && SubdirList.beq s s2

/-- Boolean equality on subdirectory lists. -/
def SubdirList.beq : SubdirList → SubdirList → Bool
  | .nil, .nil => true
  | .cons n d r, .cons n2 d2 r2 => n == n2 && DirNode.beq d d2 && SubdirList.beq r r2
  | _, _ => false
end

mutual
theorem DirNode.beq_iff : ∀ a b : DirNode, DirNode.beq a b = true ↔ a = b
  | .node a f s, .node a2 f2 s2 => by
    simp only [DirNode.beq, Bool.and_eq_true, beq_iff_eq, DirNode.node.injEq]
    have h := SubdirList.beq_iff_eq_list s s2
    tauto

theorem SubdirList.beq_iff_eq_list : ∀ a b : SubdirList, SubdirList.beq a b = true ↔ a = b
  | .nil, .nil => by simp [SubdirList.beq]
  | .nil, .cons n2 d2 r2 => by simp [SubdirList.beq]
  | .cons n d r, .nil => by simp [SubdirList.beq]
  | .cons n d r, .cons n2 d2 r2 => by
    simp only [SubdirList.beq, Bool.and_eq_true, beq_iff_eq, SubdirList.cons.injEq]
    have h1 := DirNode.beq_iff d d2
    have h2 := SubdirList.beq_iff_eq_list r r2
    tauto
end

instance : DecidableEq DirNode := fun a b =>
  decidable_of_iff (DirNode.beq a b = true) (DirNode.beq_iff a b)

instance : DecidableEq SubdirList := fun a b =>
  decidable_of_iff (SubdirList.beq a b = true) (SubdirList.beq_iff_eq_list a b)

/-- Look up the first subdirectory with the given name
(path resolution of `os.path.join(current_path, name)` as a directory). -/
def SubdirList.find? : SubdirList → String → Option DirNode
  | .nil, _ => Option.none
  | .cons n d rest, m => if n = m then some d else SubdirList.find? rest m

/-- Replace the contents of the first subdirectory with the given name. -/
def SubdirList.set : SubdirList → String → DirNode → SubdirList
  | .nil, _, _ => .nil
  | .cons n d rest, m, d2 => if n = m then .cons n d2 rest else .cons n d (SubdirList.set rest m d2)

/-- Append a new named subdirectory at the end (directory creation). -/
def SubdirList.push : SubdirList → String → DirNode → SubdirList
  | .nil, m, d2 => .cons m d2 .nil
  | .cons n d rest, m, d2 => .cons n d (SubdirList.push rest m d2)

/-- The names of the listed subdirectories. -/
def SubdirList.names : SubdirList → List String
  | .nil => []
  | .cons n _ rest => n :: SubdirList.names rest

/-- The names of all immediate entries of a directory, files and
subdirectories alike (what `os.listdir` returns). -/
def DirNode.entryNames : DirNode → List String
  | .node _ files subdirs => files.map FileE.name ++ SubdirList.names subdirs

/-- Whether `os.path.exists(current/name)` holds: some immediate file or
subdirectory bears that name. -/
def entryExists (files : List FileE) (subdirs : SubdirList) (n : String) : Bool :=
  files.any (fun f => f.name = n) || (SubdirList.find? subdirs n).isSome

/-- Outcome of one `safe_move` call, distinguishing the `[Skip Move]` print
(destination already exists) from the `[Error]` print (caught exception);
the Python function returns `True` exactly for `moved`. -/
inductive MoveOutcome : Type where
  | moved : MoveOutcome
  | skipped : MoveOutcome
  | failed : MoveOutcome
deriving DecidableEq, Repr

/-- Remove the first file with the given name from a listing, returning it
(the file `shutil.move` would relocate). -/
def extractNamed : List FileE → String → Option FileE × List FileE
  | [], _ => (Option.none, [])
  | f :: rest, n =>
    if f.name = n then (some f, rest)
    else
      let r := extractNamed rest n
      (r.1, f :: r.2)

/-- Body of `safe_move` after the `os.makedirs` step: the destination-exists
check and the `try: shutil.move` block.  `moveOk` injects a filesystem error
into `shutil.move` (permission, cross-device, ...).  When the destination
folder name denotes a plain file rather than a directory, `os.path.exists`
on the destination path is false and `shutil.move` raises
`NotADirectoryError`, which the `except` clause turns into `False`. -/
def safe_move_body (moveOk : Bool) (fname subName : String)
    (files : List FileE) (subdirs : SubdirList) :
    MoveOutcome × List FileE × SubdirList :=
  match SubdirList.find? subdirs subName with
  | some (DirNode.node db dfs dsub) =>
    if dfs.any (fun g => g.name = fname) || (SubdirList.find? dsub fname).isSome then
      (MoveOutcome.skipped, files, subdirs)
    else if moveOk then
      match extractNamed files fname with
      | (some f, files2) =>
        (MoveOutcome.moved, files2, subdirs.set subName (DirNode.node db (dfs ++ [f]) dsub))
      | (Option.none, _) =>
        (MoveOutcome.failed, files, subdirs)
    else (MoveOutcome.failed, files, subdirs)
  | Option.none => (MoveOutcome.failed, files, subdirs)

/-- `safe_move(src, dest_folder)` from `organize_photos.py` (lines 35-52),
for a source file named `fname` in the current directory and a destination
subfolder `subName` of the same directory.  The `os.makedirs` call sits
outside the `try` block, so a directory-creation failure (`mkdirOk = false`)
propagates as an exception (`Except.error`) instead of returning `False`. -/
def safe_move (mkdirOk moveOk : Bool) (fname subName : String)
    (files : List FileE) (subdirs : SubdirList) :
    Except Unit (MoveOutcome × List FileE × SubdirList) :=
  if entryExists files subdirs subName then
    Except.ok (safe_move_body moveOk fname subName files subdirs)
  else if mkdirOk then
    Except.ok (safe_move_body moveOk fname subName files
      (subdirs.push subName (DirNode.node false [] SubdirList.nil)))
  else
    Except.error ()

/-- `safe_move` as invoked by `process_directory`: the model injects no
filesystem errors into the orchestrated run, so the `os.makedirs` branch
cannot raise and the fallback arm is unreachable. -/
def safe_move_run (fname subName : String) (files : List FileE)
    (subdirs : SubdirList) : MoveOutcome × List FileE × SubdirList :=
  match safe_move true true fname subName files subdirs with
  | Except.ok r => r
  | Except.error _ => (MoveOutcome.failed, files, subdirs)

/-- Tallies of the console outcomes of one organizing run: successful
conversions, conversion errors, successful moves, move skips, move failures,
verification mismatch warnings, and exceptions escaping the verification
recount. -/
structure RunStats : Type where
  conversions : Nat
  convErrors : Nat
  moves : Nat
  moveSkips : Nat
  moveFails : Nat
  mismatches : Nat
  verifyErrors : Nat
deriving DecidableEq, Repr

/-- The all-zero tally. -/
def RunStats.zero : RunStats := ⟨0, 0, 0, 0, 0, 0, 0⟩

/-- Componentwise sum of tallies. -/
def RunStats.add (a b : RunStats) : RunStats :=
  ⟨a.conversions + b.conversions, a.convErrors + b.convErrors, a.moves + b.moves,
   a.moveSkips + b.moveSkips, a.moveFails + b.moveFails, a.mismatches + b.mismatches,
   a.verifyErrors + b.verifyErrors⟩

instance : Add RunStats := ⟨RunStats.add⟩

/-- Record the outcome of one move attempt. -/
def RunStats.bump (s : RunStats) : MoveOutcome → RunStats
  | MoveOutcome.moved =>
    ⟨s.conversions, s.convErrors, s.moves + 1, s.moveSkips, s.moveFails, s.mismatches,
     s.verifyErrors⟩
  | MoveOutcome.skipped =>
    ⟨s.conversions, s.convErrors, s.moves, s.moveSkips + 1, s.moveFails, s.mismatches,
     s.verifyErrors⟩
  | MoveOutcome.failed =>
    ⟨s.conversions, s.convErrors, s.moves, s.moveSkips, s.moveFails + 1, s.mismatches,
     s.verifyErrors⟩

/-- Record one successful conversion (a `.jpg` written). -/
def RunStats.addConv (s : RunStats) : RunStats :=
  ⟨s.conversions + 1, s.convErrors, s.moves, s.moveSkips, s.moveFails, s.mismatches,
   s.verifyErrors⟩

/-- Record one conversion error (`[Error] Failed to convert`). -/
def RunStats.addConvErr (s : RunStats) : RunStats :=
  ⟨s.conversions, s.convErrors + 1, s.moves, s.moveSkips, s.moveFails, s.mismatches,
   s.verifyErrors⟩

/-- `count_files_in_folder(folder_path, extensions)` (lines 54-62),
specialized to a subfolder of the current directory.  A missing folder counts
as zero; `os.listdir` lists files and subdirectories alike and the names are
matched lowercased against the extension tuple.  When the folder path exists
as a plain file, `os.listdir` raises `NotADirectoryError`, which
`count_files_in_folder` does not catch (`Except.error`). -/
def count_files_in_folder (files : List FileE) (subdirs : SubdirList)
    (folderName : String) (exts : List String) : Except Unit Nat :=
  match SubdirList.find? subdirs folderName with
  | some dd =>
    Except.ok ((dd.entryNames.filter (fun m => endsWithAny (strLower m) exts)).length)
  | Option.none =>
    if files.any (fun f => f.name = folderName) then Except.error ()
    else Except.ok 0

/-- The verification step of `process_directory` (lines 160-176): recount the
three subfolders and compare against the expected counts.  An exception from
the recount escapes to the directory-level handler (tallied as
`verifyErrors`); otherwise a mismatch prints the warning (tallied as
`mismatches`). -/
def verifyStats (files : List FileE) (subdirs : SubdirList)
    (nh nm n4 : Nat) : RunStats :=
  match count_files_in_folder files subdirs "heic" heicExts with
  | Except.error _ => ⟨0, 0, 0, 0, 0, 0, 1⟩
  | Except.ok ah =>
    match count_files_in_folder files subdirs "mov" movExts with
    | Except.error _ => ⟨0, 0, 0, 0, 0, 0, 1⟩
    | Except.ok am =>
      match count_files_in_folder files subdirs "mp4" mp4Exts with
      | Except.error _ => ⟨0, 0, 0, 0, 0, 0, 1⟩
      | Except.ok a4 =>
        if ah = nh ∧ am = nm ∧ a4 = n4 then RunStats.zero
        else ⟨0, 0, 0, 0, 0, 1, 0⟩

/-- The per-file loop of `process_directory` (lines 122-158) over the
snapshot list `files_to_process`, threading the live directory state.  For a
HEIC file: if the target `.jpg` exists, conversion is skipped and the move
proceeds; otherwise the codec runs (`convOk`), and on a codec error the
`continue` statement skips the move as well.  MOV and MP4 files move
directly. -/
def processFiles : List FileE → List FileE → SubdirList → RunStats →
    List FileE × SubdirList × RunStats
  | [], files, subdirs, stats => (files, subdirs, stats)
  | f :: rest, files, subdirs, stats =>
    match classify f.name with
    | Cat.heic =>
      let jpg := splitextBase f.name ++ ".jpg"
      if entryExists files subdirs jpg then
        let r := safe_move_run f.name "heic" files subdirs
        processFiles rest r.2.1 r.2.2 (stats.bump r.1)
      else if f.convOk then
        let files1 := files ++ [⟨jpg, f.content, true⟩]
        let r := safe_move_run f.name "heic" files1 subdirs
        processFiles rest r.2.1 r.2.2 ((stats.addConv).bump r.1)
      else
        processFiles rest files subdirs stats.addConvErr
    | Cat.mov =>
      let r := safe_move_run f.name "mov" files subdirs
      processFiles rest r.2.1 r.2.2 (stats.bump r.1)
    | Cat.mp4 =>
      let r := safe_move_run f.name "mp4" files subdirs
      processFiles rest r.2.1 r.2.2 (stats.bump r.1)
    | Cat.none => processFiles rest files subdirs stats

mutual
/-- `process_directory(current_path)` (lines 64-181) on a directory whose
base name is `name`: the reserved-name guard, the `PermissionError` catch
around `os.scandir`, depth-first recursion into the snapshot's
subdirectories, classification and counting of the snapshot's files, the
zero-target early return, the per-file convert/move loop, and the
verification recount. -/
def process_directory (name : String) (d : DirNode) : DirNode × RunStats :=
  match d with
  | DirNode.node denied files subdirs =>
    if reserved name then (DirNode.node denied files subdirs, RunStats.zero)
    else if denied then (DirNode.node denied files subdirs, RunStats.zero)
    else
      let rs := processSubdirs subdirs
      let nh := files.countP (fun f => classify f.name == Cat.heic)
      let nm := files.countP (fun f => classify f.name == Cat.mov)
      let n4 := files.countP (fun f => classify f.name == Cat.mp4)
      if nh + nm + n4 = 0 then (DirNode.node denied files rs.1, rs.2)
      else
        let todo := files.filter (fun f => classify f.name != Cat.none)
        let pr := processFiles todo files rs.1 RunStats.zero
        let vs := verifyStats pr.1 pr.2.1 nh nm n4
        (DirNode.node denied pr.1 pr.2.1, rs.2 + pr.2.2 + vs)

/-- The `for entry in entries: if entry.is_dir(): process_directory(...)`
loop (lines 85-87), returning the updated children and their summed tallies. -/
def processSubdirs : SubdirList → SubdirList × RunStats
  | SubdirList.nil => (SubdirList.nil, RunStats.zero)
  | SubdirList.cons n c rest =>
    let r1 := process_directory n c
    let r2 := processSubdirs rest
    (SubdirList.cons n r1.1 r2.1, r1.2 + r2.2)
end

/-- `convert_heic_to_jpg(input_path)` from `heic_to_jpg.py` (lines 40-76),
over a flat listing of file names and content tags: existence check,
extension check, output-collision check, then the conversion attempt
(`convOk` abstracting the codec), which on success writes the re-encoded
bytes of the source (modelled by copying its content tag). -/
def convert_heic_to_jpg (fs : List (String × Nat)) (input : String)
    (convOk : Bool) : List (String × Nat) :=
  if !(fs.any (fun e => e.1 = input)) then fs
  else if !(endsWithAny (strLower input) heicExts) then fs
  else
    let output := splitextBase input ++ ".jpg"
    if fs.any (fun e => e.1 = output) then fs
    else if convOk then
      let c := (((fs.find? (fun e => e.1 = input)).map Prod.snd).getD 0)
      fs ++ [(output, c)]
    else fs

/-! ### Basic accessors -/

/-- The immediate files of a directory. -/
def DirNode.filesOf : DirNode → List FileE
  | DirNode.node _ fs _ => fs

/-- The immediate subdirectories of a directory. -/
def DirNode.subsOf : DirNode → SubdirList
  | DirNode.node _ _ sd => sd

/-- The `denied` flag of a directory. -/
def DirNode.deniedOf : DirNode → Bool
  | DirNode.node b _ _ => b

/-- All files sitting immediately inside the listed subdirectories. -/
def subFiles : SubdirList → List FileE
  | SubdirList.nil => []
  | SubdirList.cons _ d rest => d.filesOf ++ subFiles rest

/-! ### String lemmas

Facts about the modelled Python string operations: lowercasing distributes
over append, `endswith` is suffix membership, and the recognized extension
sets are pairwise incompatible with the `.jpg` suffix. -/

theorem strLower_append (s t : String) : strLower (s ++ t) = strLower s ++ strLower t := by
  apply String.ext
  simp [strLower, String.data_append]

theorem strEndsWith_iff {s t : String} : strEndsWith s t = true ↔ t.data <:+ s.data := by
  simp [strEndsWith, List.isSuffixOf_iff_suffix]

theorem strEndsWith_disjoint {s a b : String} (ha : strEndsWith s a = true)
    (hab : ¬ (a.data <:+ b.data)) (hba : ¬ (b.data <:+ a.data)) :
    strEndsWith s b = false := by
  cases h : strEndsWith s b with
  | false => rfl
  | true =>
    rcases List.suffix_or_suffix_of_suffix (strEndsWith_iff.mp ha) (strEndsWith_iff.mp h) with
      hc | hc
    · exact absurd hc hab
    · exact absurd hc hba

theorem strEndsWith_append_right (s t : String) : strEndsWith (s ++ t) t = true :=
  strEndsWith_iff.mpr (by rw [String.data_append]; exact List.suffix_append _ _)

theorem strLower_ends_jpg (s : String) :
    strEndsWith (strLower (s ++ ".jpg")) ".jpg" = true := by
  rw [strLower_append]
  have h : strLower ".jpg" = ".jpg" := by decide
  rw [h]
  exact strEndsWith_append_right _ _

/-- A name ending in `.jpg` (after lowercasing) matches none of the six
recognized extensions. -/
theorem classify_of_ends_jpg {n : String}
    (h : strEndsWith (strLower n) ".jpg" = true) : classify n = Cat.none := by
  unfold classify endsWithAny heicExts movExts mp4Exts
  simp only [List.any_cons, List.any_nil, Bool.or_false]
  rw [strEndsWith_disjoint h (by decide) (by decide),
      strEndsWith_disjoint h (by decide) (by decide),
      strEndsWith_disjoint h (by decide) (by decide),
      strEndsWith_disjoint h (by decide) (by decide),
      strEndsWith_disjoint h (by decide) (by decide),
      strEndsWith_disjoint h (by decide) (by decide)]
  rfl

/-- A freshly written conversion target is never classified for processing. -/
theorem classify_append_jpg (s : String) : classify (s ++ ".jpg") = Cat.none :=
  classify_of_ends_jpg (strLower_ends_jpg s)

/-- Names whose lowercase form does not end in `.jpg` are never equal to a
conversion target path. -/
theorem ne_append_jpg_of {t : String} (h : strEndsWith (strLower t) ".jpg" = false)
    (s : String) : s ++ ".jpg" ≠ t := by
  intro e
  rw [← e, strLower_ends_jpg s] at h
  cases h

/-- A classified (target) file name is never one of the three reserved
subfolder names. -/
theorem target_ne_reserved {n : String} (h : classify n ≠ Cat.none) :
    n ≠ "heic" ∧ n ≠ "mov" ∧ n ≠ "mp4" := by
  refine ⟨fun e => ?_, fun e => ?_, fun e => ?_⟩ <;> (rw [e] at h; exact h (by decide))

/-- A classified (target) file name is never a conversion target path. -/
theorem target_ne_append_jpg {n : String} (h : classify n ≠ Cat.none) (s : String) :
    n ≠ s ++ ".jpg" := by
  intro e
  rw [e] at h
  exact h (classify_append_jpg s)

/-- Names with different classifications differ. -/
theorem classify_ne {a b : String} (h : classify a ≠ classify b) : a ≠ b :=
  fun e => h (by rw [e])

/-- Inversion: a HEIC-classified name matches the HEIC extension tuple. -/
theorem classify_heic_inv {n : String} (h : classify n = Cat.heic) :
    endsWithAny (strLower n) heicExts = true := by
  unfold classify at h
  split at h
  · assumption
  · split at h
    · simp at h
    · split at h <;> simp at h

/-- Inversion: a MOV-classified name matches `.mov` and not the HEIC tuple. -/
theorem classify_mov_inv {n : String} (h : classify n = Cat.mov) :
    endsWithAny (strLower n) heicExts = false ∧
      endsWithAny (strLower n) movExts = true := by
  unfold classify at h
  split at h
  · simp at h
  · rename_i h1
    split at h
    · rename_i h2
      exact ⟨by simpa using h1, h2⟩
    · split at h <;> simp at h

/-- Inversion: an MP4-classified name matches the MP4 tuple and neither of
the earlier tuples. -/
theorem classify_mp4_inv {n : String} (h : classify n = Cat.mp4) :
    endsWithAny (strLower n) heicExts = false ∧
      endsWithAny (strLower n) movExts = false ∧
      endsWithAny (strLower n) mp4Exts = true := by
  unfold classify at h
  split at h
  · simp at h
  · rename_i h1
    split at h
    · simp at h
    · rename_i h2
      split at h
      · rename_i h3
        exact ⟨by simpa using h1, by simpa using h2, h3⟩
      · simp at h

/-- Inversion: an unclassified name matches no extension tuple. -/
theorem classify_none_inv {n : String} (h : classify n = Cat.none) :
    endsWithAny (strLower n) heicExts = false ∧
      endsWithAny (strLower n) movExts = false ∧
      endsWithAny (strLower n) mp4Exts = false := by
  unfold classify at h
  split at h
  · simp at h
  · rename_i h1
    split at h
    · simp at h
    · rename_i h2
      split at h
      · simp at h
      · rename_i h3
        exact ⟨by simpa using h1, by simpa using h2, by simpa using h3⟩

/-! ### Permutation facts about moves

`safe_move` relocates at most one file record and never alters or drops any
other: the combined listing of the current directory and its subfolders is
preserved up to permutation. -/

/-- Structural induction for `SubdirList` alone (the generic eliminator of
the mutual inductive has two motives, which the `induction` tactic rejects). -/
theorem SubdirList.indOn {motive : SubdirList → Prop} (h0 : motive SubdirList.nil)
    (h1 : ∀ n d rest, motive rest → motive (SubdirList.cons n d rest)) :
    ∀ l, motive l
  | SubdirList.nil => h0
  | SubdirList.cons n d rest => h1 n d rest (SubdirList.indOn h0 h1 rest)

theorem extractNamed_perm :
    ∀ {files : List FileE} {n : String} {f : FileE} {rest : List FileE},
      extractNamed files n = (some f, rest) → files.Perm (f :: rest)
  | [], n, f, rest => by intro h; simp [extractNamed] at h
  | g :: gs, n, f, rest => by
    intro h
    unfold extractNamed at h
    by_cases hg : g.name = n
    · rw [if_pos hg] at h
      injection h with h1 h2
      injection h1 with h1
      subst h1
      subst h2
      exact List.Perm.refl _
    · rw [if_neg hg] at h
      injection h with h1 h2
      subst h2
      have hx : extractNamed gs n = (some f, (extractNamed gs n).2) := by rw [← h1]
      have ih := extractNamed_perm hx
      exact (ih.cons g).trans (List.Perm.swap f g _)

theorem subFiles_push (l : SubdirList) (m : String) (d : DirNode) :
    subFiles (l.push m d) = subFiles l ++ d.filesOf := by
  induction l using SubdirList.indOn with
  | h0 => simp [SubdirList.push, subFiles]
  | h1 n c rest ih => simp [SubdirList.push, subFiles, ih]

theorem subFiles_set_move {m : String} {db : Bool}
    {dfs : List FileE} {dsub : SubdirList} {l : SubdirList}
    (h : SubdirList.find? l m = some (DirNode.node db dfs dsub)) (f : FileE) :
    (subFiles (l.set m (DirNode.node db (dfs ++ [f]) dsub))).Perm (f :: subFiles l) := by
  induction l using SubdirList.indOn with
  | h0 => simp [SubdirList.find?] at h
  | h1 n c rest ih =>
    unfold SubdirList.find? at h
    by_cases hn : n = m
    · rw [if_pos hn] at h
      injection h with h
      subst h
      unfold SubdirList.set
      rw [if_pos hn]
      show ((dfs ++ [f]) ++ subFiles rest).Perm (f :: (dfs ++ subFiles rest))
      rw [List.append_assoc]
      exact List.perm_middle
    · rw [if_neg hn] at h
      unfold SubdirList.set
      rw [if_neg hn]
      show (c.filesOf ++ subFiles (rest.set m _)).Perm (f :: (c.filesOf ++ subFiles rest))
      exact ((ih h).append_left c.filesOf).trans List.perm_middle

/-- Case analysis of `safe_move_body`: the state is preserved up to moving
one file record from the current listing into the destination subfolder, and
any outcome other than `moved` leaves the file listing untouched. -/
theorem safe_move_body_spec (moveOk : Bool) (fname subName : String)
    (files : List FileE) (subdirs : SubdirList) :
    ((safe_move_body moveOk fname subName files subdirs).2.1 ++
        subFiles (safe_move_body moveOk fname subName files subdirs).2.2).Perm
      (files ++ subFiles subdirs) ∧
    ((safe_move_body moveOk fname subName files subdirs).1 = MoveOutcome.moved ∨
      (safe_move_body moveOk fname subName files subdirs).2.1 = files) := by
  unfold safe_move_body
  cases hfind : SubdirList.find? subdirs subName with
  | none => exact ⟨List.Perm.refl _, Or.inr rfl⟩
  | some dd =>
    cases dd with
    | node db dfs dsub =>
      dsimp only
      by_cases hcoll :
          ((dfs.any fun g => decide (g.name = fname)) || (SubdirList.find? dsub fname).isSome)
            = true
      · rw [if_pos hcoll]
        exact ⟨List.Perm.refl _, Or.inr rfl⟩
      · rw [if_neg hcoll]
        cases moveOk with
        | false =>
          rw [if_neg (by simp : ¬(false = true))]
          exact ⟨List.Perm.refl _, Or.inr rfl⟩
        | true =>
          rw [if_pos rfl]
          cases hex : extractNamed files fname with
          | mk fo files2 =>
            cases fo with
            | none =>
              dsimp only
              exact ⟨List.Perm.refl _, Or.inr rfl⟩
            | some f =>
              dsimp only
              refine ⟨?_, Or.inl rfl⟩
              have hp1 : files.Perm (f :: files2) :=
                extractNamed_perm hex
              have hp2 := subFiles_set_move hfind f
              have step1 :
                  (files2 ++
                      subFiles (subdirs.set subName (DirNode.node db (dfs ++ [f]) dsub))).Perm
                    (files2 ++ (f :: subFiles subdirs)) := hp2.append_left files2
              have step2 : (files2 ++ (f :: subFiles subdirs)).Perm
                  (f :: (files2 ++ subFiles subdirs)) := List.perm_middle
              have step3 : (f :: (files2 ++ subFiles subdirs)).Perm
                  (files ++ subFiles subdirs) := (hp1.append_right _).symm
              exact (step1.trans step2).trans step3

/-! ### Claim theorems -/

/-- C4: a directory whose own base name is (case-insensitively) one of the
reserved names heic, mov, mp4 is returned unchanged by `process_directory`,
with no recursion, no file inspection and no filesystem mutation. -/
theorem C4_theorem (name : String) (d : DirNode) (h : reserved name = true) :
    process_directory name d = (d, RunStats.zero) := by
  cases d with
  | node denied files subdirs =>
    unfold process_directory
    rw [if_pos h]

/-- Witness for C4 at a concrete reserved-named directory holding a target
file. -/
theorem C4_witness :
    reserved "HeiC" = true ∧
      process_directory "HeiC" (DirNode.node false [⟨"x.mov", 3, true⟩] SubdirList.nil)
        = (DirNode.node false [⟨"x.mov", 3, true⟩] SubdirList.nil, RunStats.zero) :=
  ⟨by decide, C4_theorem "HeiC" _ (by decide)⟩

/-- C5: when a file with the same base name already exists in the
destination folder, `safe_move` reports a skip, returns false, and leaves
the whole state (source file and existing destination file) unchanged. -/
theorem C5_theorem (mkdirOk moveOk : Bool) (fname subName : String)
    (files : List FileE) (subdirs : SubdirList) (db : Bool) (dfs : List FileE)
    (dsub : SubdirList)
    (hfind : SubdirList.find? subdirs subName = some (DirNode.node db dfs dsub))
    (hcoll : dfs.any (fun g => g.name = fname) = true) :
    safe_move mkdirOk moveOk fname subName files subdirs
      = Except.ok (MoveOutcome.skipped, files, subdirs) := by
  have hex : entryExists files subdirs subName = true := by
    unfold entryExists
    rw [hfind]
    simp
  unfold safe_move
  rw [if_pos hex]
  unfold safe_move_body
  rw [hfind]
  dsimp only
  rw [hcoll, Bool.true_or, if_pos rfl]

/-- Witness for C5: moving `a.mov` when `mov/a.mov` already exists skips and
changes nothing. -/
theorem C5_witness :
    safe_move true true "a.mov" "mov" [⟨"a.mov", 7, true⟩]
        (SubdirList.cons "mov" (DirNode.node false [⟨"a.mov", 5, true⟩] SubdirList.nil)
          SubdirList.nil)
      = Except.ok (MoveOutcome.skipped, [⟨"a.mov", 7, true⟩],
          SubdirList.cons "mov" (DirNode.node false [⟨"a.mov", 5, true⟩] SubdirList.nil)
            SubdirList.nil) :=
  C5_theorem true true "a.mov" "mov" [⟨"a.mov", 7, true⟩]
    (SubdirList.cons "mov" (DirNode.node false [⟨"a.mov", 5, true⟩] SubdirList.nil)
      SubdirList.nil)
    false [⟨"a.mov", 5, true⟩] SubdirList.nil (by decide) (by decide)

/-- C2 counterexample: with the destination folder missing and directory
creation failing, `safe_move` raises (the `os.makedirs` call sits outside the
`try` block), instead of reporting failure and returning false as the claim
states for every filesystem error. -/
theorem C2_counterexample :
    safe_move false true "a.mov" "mov" [⟨"a.mov", 0, true⟩] SubdirList.nil
      = Except.error () := rfl

/-- With the move itself failing (`moveOk = false`), the body of `safe_move`
reports a non-`moved` outcome — the `[Skip Move]` branch or the caught
exception, both returning `False` — and leaves the directory listing and the
subfolders exactly as they were. -/
theorem safe_move_body_fail (fname subName : String) (files : List FileE)
    (subdirs : SubdirList) :
    (safe_move_body false fname subName files subdirs).1 ≠ MoveOutcome.moved ∧
    (safe_move_body false fname subName files subdirs).2.1 = files ∧
    (safe_move_body false fname subName files subdirs).2.2 = subdirs := by
  unfold safe_move_body
  cases hfind : SubdirList.find? subdirs subName with
  | none =>
    exact ⟨fun h => MoveOutcome.noConfusion h, rfl, rfl⟩
  | some d =>
    cases d with
    | node db dfs dsub =>
      dsimp only
      by_cases hcoll : (dfs.any (fun g => g.name = fname)
          || (SubdirList.find? dsub fname).isSome) = true
      · rw [if_pos hcoll]
        exact ⟨fun h => MoveOutcome.noConfusion h, rfl, rfl⟩
      · rw [if_neg hcoll]
        rw [if_neg (by simp : ¬(false = true))]
        exact ⟨fun h => MoveOutcome.noConfusion h, rfl, rfl⟩

/-- C2 (amended): provided directory creation succeeds (or is not needed),
`safe_move` never raises: it returns an outcome, and on any error injected
into the move itself the outcome is not `moved` (the Python function returns
`False`) and the file listing is untouched; in all cases the combined
listing of the directory and its subfolders is preserved up to permutation —
no file is deleted or overwritten. -/
theorem C2_theorem (moveOk : Bool) (fname subName : String) (files : List FileE)
    (subdirs : SubdirList) :
    ∃ out files2 subdirs2,
      safe_move true moveOk fname subName files subdirs
        = Except.ok (out, files2, subdirs2) ∧
      (files2 ++ subFiles subdirs2).Perm (files ++ subFiles subdirs) ∧
      (out = MoveOutcome.moved ∨ files2 = files) ∧
      (moveOk = false → out ≠ MoveOutcome.moved ∧ files2 = files) := by
  unfold safe_move
  by_cases hex : entryExists files subdirs subName = true
  · rw [if_pos hex]
    obtain ⟨hp, ho⟩ := safe_move_body_spec moveOk fname subName files subdirs
    refine ⟨_, _, _, rfl, hp, ho, ?_⟩
    intro hm
    rw [hm]
    obtain ⟨f1, f2, f3⟩ := safe_move_body_fail fname subName files subdirs
    exact ⟨f1, f2⟩
  · rw [if_neg hex, if_pos rfl]
    obtain ⟨hp, ho⟩ := safe_move_body_spec moveOk fname subName files
      (subdirs.push subName (DirNode.node false [] SubdirList.nil))
    have hsub : subFiles (subdirs.push subName (DirNode.node false [] SubdirList.nil))
        = subFiles subdirs := by
      rw [subFiles_push]
      simp [DirNode.filesOf]
    rw [hsub] at hp
    refine ⟨_, _, _, rfl, hp, ho, ?_⟩
    intro hm
    rw [hm]
    obtain ⟨f1, f2, f3⟩ := safe_move_body_fail fname subName files
      (subdirs.push subName (DirNode.node false [] SubdirList.nil))
    exact ⟨f1, f2⟩

/-- C1 counterexample: a HEIC file whose conversion fails is left exactly in
place — `moves = 0`, no `heic/` subfolder is created — refuting the claim
that the original is still subjected to the move. -/
theorem C1_counterexample :
    (process_directory "root" (DirNode.node false [⟨"a.heic", 0, false⟩] SubdirList.nil)).1
        = DirNode.node false [⟨"a.heic", 0, false⟩] SubdirList.nil ∧
      (process_directory "root" (DirNode.node false [⟨"a.heic", 0, false⟩] SubdirList.nil)).2
        = ⟨0, 1, 0, 0, 0, 1, 0⟩ := by decide

/-- C1 (amended): a conversion failure makes the per-file loop `continue`,
skipping the move as well — the file's step only records the conversion
error and leaves the directory state untouched; concretely, a directory with
a sole failing HEIC file ends unchanged, with zero moves and a verification
mismatch. -/
theorem C1_theorem :
    (∀ (f : FileE) (rest files : List FileE) (subdirs : SubdirList) (stats : RunStats),
        classify f.name = Cat.heic → f.convOk = false →
        entryExists files subdirs (splitextBase f.name ++ ".jpg") = false →
        processFiles (f :: rest) files subdirs stats
          = processFiles rest files subdirs stats.addConvErr) ∧
      ∀ c : Nat,
        process_directory "root" (DirNode.node false [⟨"a.heic", c, false⟩] SubdirList.nil)
          = (DirNode.node false [⟨"a.heic", c, false⟩] SubdirList.nil,
             ⟨0, 1, 0, 0, 0, 1, 0⟩) := by
  constructor
  · intro f rest files subdirs stats hf hc hjpg
    conv_lhs => unfold processFiles
    rw [hf]
    dsimp only
    rw [hjpg]
    rw [if_neg (by simp : ¬(false = true))]
    rw [hc]
    rw [if_neg (by simp : ¬(false = true))]
  · intro c
    rfl

/-- Witness for C1 (amended) at a concrete failing HEIC file. -/
theorem C1_witness :
    processFiles [⟨"b.heic", 5, false⟩] [⟨"b.heic", 5, false⟩] SubdirList.nil RunStats.zero
      = processFiles [] [⟨"b.heic", 5, false⟩] SubdirList.nil RunStats.zero.addConvErr :=
  C1_theorem.1 _ _ _ _ _ (by decide) rfl (by decide)

/-- C9: the verification recount is absolute — files already sitting in a
category subfolder before the run are counted too, so a directory whose
`mov/` subfolder was non-empty beforehand reports a count mismatch
(`mismatches = 1`) even though its single move succeeded (`moves = 1`,
no skips, no failures). -/
theorem C9_theorem :
    process_directory "root"
        (DirNode.node false [⟨"a.mov", 0, true⟩]
          (SubdirList.cons "mov" (DirNode.node false [⟨"b.mov", 1, true⟩] SubdirList.nil)
            SubdirList.nil))
      = (DirNode.node false []
          (SubdirList.cons "mov"
            (DirNode.node false [⟨"b.mov", 1, true⟩, ⟨"a.mov", 0, true⟩] SubdirList.nil)
            SubdirList.nil),
         ⟨0, 0, 1, 0, 0, 1, 0⟩) := by decide

/-- C8: (i) a directory whose listing raises `PermissionError` is returned
unchanged — its children are not visited and its own files are not
processed; (ii) in a tree with a denied subdirectory, the sibling directory
and the parent's own files are still processed normally. -/
theorem C8_theorem :
    (∀ (cname : String) (cf : List FileE) (cs : SubdirList),
        process_directory cname (DirNode.node true cf cs)
          = (DirNode.node true cf cs, RunStats.zero)) ∧
      process_directory "root"
          (DirNode.node false [⟨"a.mov", 0, true⟩]
            (SubdirList.cons "locked" (DirNode.node true [⟨"x.mov", 1, true⟩] SubdirList.nil)
              (SubdirList.cons "sub" (DirNode.node false [⟨"y.mp4", 2, true⟩] SubdirList.nil)
                SubdirList.nil)))
        = (DirNode.node false []
            (SubdirList.cons "locked" (DirNode.node true [⟨"x.mov", 1, true⟩] SubdirList.nil)
              (SubdirList.cons "sub"
                (DirNode.node false []
                  (SubdirList.cons "mp4"
                    (DirNode.node false [⟨"y.mp4", 2, true⟩] SubdirList.nil)
                    SubdirList.nil))
                (SubdirList.cons "mov" (DirNode.node false [⟨"a.mov", 0, true⟩] SubdirList.nil)
                  SubdirList.nil))),
           ⟨0, 0, 2, 0, 0, 0, 0⟩) := by
  constructor
  · intro cname cf cs
    unfold process_directory
    by_cases h : reserved cname = true
    · rw [if_pos h]
    · rw [if_neg h, if_pos rfl]
  · decide

/-- C10: `convert_heic_to_jpg` performs no filesystem write when the input
does not exist, when its name lacks a HEIC/HEIF extension, or when the
target `.jpg` already exists — the listing is returned unchanged. -/
theorem C10_theorem (fs : List (String × Nat)) (input : String) (convOk : Bool)
    (h : fs.any (fun e => e.1 = input) = false ∨
         endsWithAny (strLower input) heicExts = false ∨
         fs.any (fun e => e.1 = splitextBase input ++ ".jpg") = true) :
    convert_heic_to_jpg fs input convOk = fs := by
  rcases h with h1 | h2 | h3
  · simp [convert_heic_to_jpg, h1]
  · by_cases h1 : fs.any (fun e => decide (e.1 = input)) = true
    · simp [convert_heic_to_jpg, h1, h2]
    · rw [Bool.not_eq_true] at h1
      simp [convert_heic_to_jpg, h1]
  · by_cases h1 : fs.any (fun e => decide (e.1 = input)) = true
    · by_cases h2 : endsWithAny (strLower input) heicExts = true
      · simp [convert_heic_to_jpg, h1, h2, h3]
      · rw [Bool.not_eq_true] at h2
        simp [convert_heic_to_jpg, h1, h2]
    · rw [Bool.not_eq_true] at h1
      simp [convert_heic_to_jpg, h1]

/-- Witness for C10: converting `a.heic` when `a.jpg` already exists leaves
the listing unchanged. -/
theorem C10_witness :
    convert_heic_to_jpg [("a.jpg", 1), ("a.heic", 2)] "a.heic" true
      = [("a.jpg", 1), ("a.heic", 2)] :=
  C10_theorem _ _ _ (Or.inr (Or.inr (by decide)))

/-- C7: for a HEIC file `f` whose conversion target `g` (same base name,
`.jpg` extension) already exists in the directory, organizing skips the
conversion (zero conversions, zero conversion errors, regardless of whether
the codec would succeed on `f`), leaves `g` untouched with its content tag
intact, and still moves the original `f` into the `heic/` subfolder. -/
theorem C7_theorem (f g : FileE) (hf : classify f.name = Cat.heic)
    (hg : g.name = splitextBase f.name ++ ".jpg") :
    process_directory "d" (DirNode.node false [g, f] SubdirList.nil)
      = (DirNode.node false [g]
          (SubdirList.cons "heic" (DirNode.node false [f] SubdirList.nil) SubdirList.nil),
         ⟨0, 0, 1, 0, 0, 0, 0⟩) := by
  have hfne : classify f.name ≠ Cat.none := by rw [hf]; exact fun h => Cat.noConfusion h
  obtain ⟨hfh, hfm, hf4⟩ := target_ne_reserved hfne
  have hgh : splitextBase f.name ++ ".jpg" ≠ "heic" := ne_append_jpg_of (by decide) _
  have hgm : splitextBase f.name ++ ".jpg" ≠ "mov" := ne_append_jpg_of (by decide) _
  have hg4 : splitextBase f.name ++ ".jpg" ≠ "mp4" := ne_append_jpg_of (by decide) _
  have hgf : splitextBase f.name ++ ".jpg" ≠ f.name :=
    (target_ne_append_jpg hfne _).symm
  have hje : endsWithAny (strLower f.name) heicExts = true := classify_heic_inv hf
  have hr : reserved "d" = false := rfl
  simp [process_directory, processSubdirs, processFiles, safe_move_run, safe_move,
    safe_move_body, verifyStats, count_files_in_folder, entryExists, extractNamed,
    SubdirList.find?, SubdirList.push, SubdirList.set, SubdirList.names,
    DirNode.entryNames, RunStats.bump, RunStats.zero, RunStats.add, RunStats.addConv,
    List.filter_cons, List.filter_nil, classify_append_jpg,
    hr, hf, hg, hgh, hgm, hg4, hgf, hje, hfh, hfm, hf4]
  rfl

/-! ### Helper notions for the counting and idempotence proofs -/

/-- The immediate file names of a category subfolder (empty when the
subfolder does not exist). -/
def catFiles (subdirs : SubdirList) (cat : String) : List String :=
  match SubdirList.find? subdirs cat with
  | some dd => dd.filesOf.map FileE.name
  | Option.none => []

/-- The subfolder named `cat`, when present, has no subdirectories of its
own (true of every subfolder the organizer creates). -/
def catNil (subdirs : SubdirList) (cat : String) : Prop :=
  ∀ dd, SubdirList.find? subdirs cat = some dd → dd.subsOf = SubdirList.nil

theorem any_name_eq_false {files : List FileE} {n : String}
    (h : n ∉ files.map FileE.name) :
    (files.any fun g => decide (g.name = n)) = false := by
  rw [← Bool.not_eq_true, List.any_eq_true]
  rintro ⟨g, hg, he⟩
  exact h (List.mem_map.mpr ⟨g, hg, by simpa using he⟩)

theorem find?_push_self {l : SubdirList} {m : String}
    (h : SubdirList.find? l m = Option.none) (d : DirNode) :
    SubdirList.find? (l.push m d) m = some d := by
  induction l using SubdirList.indOn with
  | h0 => simp [SubdirList.push, SubdirList.find?]
  | h1 n c rest ih =>
    unfold SubdirList.find? at h
    unfold SubdirList.push SubdirList.find?
    by_cases hn : n = m
    · rw [if_pos hn] at h
      simp at h
    · rw [if_neg hn] at h
      rw [if_neg hn]
      exact ih h

theorem find?_push_ne {l : SubdirList} {m m' : String} (h : m' ≠ m) (d : DirNode) :
    SubdirList.find? (l.push m d) m' = SubdirList.find? l m' := by
  induction l using SubdirList.indOn with
  | h0 =>
    unfold SubdirList.push SubdirList.find?
    rw [if_neg (fun e => h e.symm)]
    rfl
  | h1 n c rest ih =>
    unfold SubdirList.push SubdirList.find?
    by_cases hn : n = m'
    · rw [if_pos hn, if_pos hn]
    · rw [if_neg hn, if_neg hn]
      exact ih

theorem find?_set_self {l : SubdirList} {m : String} {x : DirNode}
    (h : SubdirList.find? l m = some x) (d2 : DirNode) :
    SubdirList.find? (l.set m d2) m = some d2 := by
  induction l using SubdirList.indOn with
  | h0 => simp [SubdirList.find?] at h
  | h1 n c rest ih =>
    unfold SubdirList.find? at h
    unfold SubdirList.set
    by_cases hn : n = m
    · rw [if_pos hn]
      unfold SubdirList.find?
      rw [if_pos hn]
    · rw [if_neg hn] at h
      rw [if_neg hn]
      unfold SubdirList.find?
      rw [if_neg hn]
      exact ih h

theorem find?_set_ne {l : SubdirList} {m m' : String} (h : m' ≠ m) (d2 : DirNode) :
    SubdirList.find? (l.set m d2) m' = SubdirList.find? l m' := by
  induction l using SubdirList.indOn with
  | h0 => rfl
  | h1 n c rest ih =>
    unfold SubdirList.set
    by_cases hn : n = m
    · rw [if_pos hn]
      unfold SubdirList.find?
      rw [if_neg (fun e : n = m' => h (hn ▸ e.symm ▸ rfl)), if_neg (fun e : n = m' => h (hn ▸ e.symm ▸ rfl))]
    · rw [if_neg hn]
      unfold SubdirList.find?
      by_cases hn' : n = m'
      · rw [if_pos hn', if_pos hn']
      · rw [if_neg hn', if_neg hn']
        exact ih

theorem extractNamed_spec :
    ∀ {files : List FileE} {n : String}, n ∈ files.map FileE.name →
      ∃ f2 files2, extractNamed files n = (some f2, files2) ∧ f2.name = n ∧
        files2.map FileE.name = (files.map FileE.name).erase n
  | [], n => by simp
  | g :: gs, n => by
    intro h
    unfold extractNamed
    by_cases hg : g.name = n
    · rw [if_pos hg]
      refine ⟨g, gs, rfl, hg, ?_⟩
      subst hg
      rw [List.map_cons, List.erase_cons_head]
    · rw [if_neg hg]
      have hmem : n ∈ gs.map FileE.name := by
        rcases List.mem_map.mp h with ⟨x, hx, hxn⟩
        rcases List.mem_cons.mp hx with hx1 | hx1
        · exact absurd (hx1 ▸ hxn) hg
        · exact List.mem_map.mpr ⟨x, hx1, hxn⟩
      obtain ⟨f2, files2, hex, hname, hnames⟩ := extractNamed_spec hmem
      refine ⟨f2, g :: (extractNamed gs n).2, ?_, hname, ?_⟩
      · rw [hex]
      · rw [hex]
        show (g :: files2).map FileE.name = ((g :: gs).map FileE.name).erase n
        rw [List.map_cons, List.map_cons, hnames,
          List.erase_cons_tail ?_]
        · simp [hg]

/-- A `safe_move` invoked on a present source, a destination name not taken
by a file, and a flat destination folder without a name collision, succeeds:
the source's record leaves the listing, its name is appended to the
destination folder, and every other subfolder is untouched. -/
theorem safe_move_run_move (f : FileE) (cat : String) (files : List FileE)
    (subdirs : SubdirList)
    (h1 : cat ∉ files.map FileE.name)
    (h2 : f.name ∈ files.map FileE.name)
    (h3 : catNil subdirs cat)
    (h4 : f.name ∉ catFiles subdirs cat) :
    ∃ fs2 sd2,
      safe_move_run f.name cat files subdirs = (MoveOutcome.moved, fs2, sd2) ∧
      fs2.map FileE.name = (files.map FileE.name).erase f.name ∧
      catFiles sd2 cat = catFiles subdirs cat ++ [f.name] ∧
      (∀ m, m ≠ cat → SubdirList.find? sd2 m = SubdirList.find? subdirs m) ∧
      catNil sd2 cat := by
  obtain ⟨f2, files2, hex, hname, hnames⟩ := extractNamed_spec h2
  have hany : (files.any fun g => decide (g.name = cat)) = false := any_name_eq_false h1
  unfold safe_move_run safe_move
  cases hfind : SubdirList.find? subdirs cat with
  | some dd =>
    cases dd with
    | node db dfs dsub =>
      have hnil : dsub = SubdirList.nil := h3 _ hfind
      subst hnil
      have hexists : entryExists files subdirs cat = true := by
        unfold entryExists
        rw [hfind]
        simp
      rw [if_pos hexists]
      unfold safe_move_body
      rw [hfind]
      dsimp only
      have hnocoll : ((dfs.any fun g => decide (g.name = f.name)) ||
          (SubdirList.find? SubdirList.nil f.name).isSome) = true ↔ False := by
        have : f.name ∉ dfs.map FileE.name := by
          intro hm
          apply h4
          unfold catFiles
          rw [hfind]
          exact hm
        rw [any_name_eq_false this]
        simp [SubdirList.find?]
      rw [if_neg (by rw [hnocoll]; exact id), if_pos rfl, hex]
      refine ⟨files2, _, rfl, hnames, ?_, ?_, ?_⟩
      · unfold catFiles
        rw [find?_set_self hfind, hfind]
        simp [DirNode.filesOf, hname]
      · intro m hm
        exact find?_set_ne hm _
      · intro dd hdd
        rw [find?_set_self hfind] at hdd
        injection hdd with hdd
        rw [← hdd]
        rfl
  | none =>
    have hexists : entryExists files subdirs cat = false := by
      unfold entryExists
      rw [hfind, hany]
      rfl
    rw [hexists]
    rw [if_neg (by simp : ¬(false = true)), if_pos rfl]
    unfold safe_move_body
    have hfind2 := find?_push_self hfind (DirNode.node false [] SubdirList.nil)
    rw [hfind2]
    dsimp only
    rw [if_neg (by simp [SubdirList.find?] : ¬((([] : List FileE).any fun g => decide (g.name = f.name)) ||
        (SubdirList.find? SubdirList.nil f.name).isSome) = true), if_pos rfl, hex]
    refine ⟨files2, _, rfl, hnames, ?_, ?_, ?_⟩
    · unfold catFiles
      rw [find?_set_self hfind2, hfind]
      simp [DirNode.filesOf, hname]
    · intro m hm
      rw [find?_set_ne hm, find?_push_ne hm]
    · intro dd hdd
      rw [find?_set_self hfind2] at hdd
      injection hdd with hdd
      rw [← hdd]
      rfl

@[simp] theorem RunStats.add_conversions (a b : RunStats) :
    (a + b).conversions = a.conversions + b.conversions := rfl

@[simp] theorem RunStats.add_convErrors (a b : RunStats) :
    (a + b).convErrors = a.convErrors + b.convErrors := rfl

@[simp] theorem RunStats.add_moves (a b : RunStats) :
    (a + b).moves = a.moves + b.moves := rfl

@[simp] theorem RunStats.add_moveSkips (a b : RunStats) :
    (a + b).moveSkips = a.moveSkips + b.moveSkips := rfl

@[simp] theorem RunStats.add_moveFails (a b : RunStats) :
    (a + b).moveFails = a.moveFails + b.moveFails := rfl

@[simp] theorem RunStats.add_mismatches (a b : RunStats) :
    (a + b).mismatches = a.mismatches + b.mismatches := rfl

@[simp] theorem RunStats.add_verifyErrors (a b : RunStats) :
    (a + b).verifyErrors = a.verifyErrors + b.verifyErrors := rfl

/-- `catFolder` hits `"heic"` exactly on the HEIC class. -/
theorem catFolder_eq_heic {c : Cat} : catFolder c = "heic" ↔ c = Cat.heic := by
  cases c <;> simp [catFolder]

/-- `catFolder` hits `"mov"` exactly on the MOV class. -/
theorem catFolder_eq_mov {c : Cat} : catFolder c = "mov" ↔ c = Cat.mov := by
  cases c <;> simp [catFolder]

/-- `catFolder` hits `"mp4"` exactly on the MP4 class. -/
theorem catFolder_eq_mp4 {c : Cat} : catFolder c = "mp4" ↔ c = Cat.mp4 := by
  cases c <;> simp [catFolder]

/-- A classified file's destination folder is one of the three reserved
names. -/
theorem catFolder_mem {n : String} (h : classify n ≠ Cat.none) :
    catFolder (classify n) = "heic" ∨ catFolder (classify n) = "mov" ∨
      catFolder (classify n) = "mp4" := by
  cases hc : classify n
  · exact Or.inl rfl
  · exact Or.inr (Or.inl rfl)
  · exact Or.inr (Or.inr rfl)
  · exact absurd hc h

/-- Two subfolder listings with the same lookup at `cat` list the same
files there. -/
theorem catFiles_congr {sd1 sd2 : SubdirList} {cat : String}
    (h : SubdirList.find? sd1 cat = SubdirList.find? sd2 cat) :
    catFiles sd1 cat = catFiles sd2 cat := by
  unfold catFiles
  rw [h]

/-- The target tally splits into the three per-category tallies. -/
theorem countP_classify_split (files : List FileE) :
    files.countP (fun f => classify f.name != Cat.none)
      = files.countP (fun f => classify f.name == Cat.heic)
        + files.countP (fun f => classify f.name == Cat.mov)
        + files.countP (fun f => classify f.name == Cat.mp4) := by
  induction files with
  | nil => rfl
  | cons f fs ih =>
    rw [List.countP_cons, List.countP_cons, List.countP_cons, List.countP_cons, ih]
    cases hc : classify f.name <;> simp [hc] <;> omega

/-- When the folder name is not taken by a file and the folder, if present,
is flat, the recount returns the filtered length of the folder's file
names. -/
theorem count_in_folder_of (files2 : List FileE) (subdirs2 : SubdirList)
    (cat : String) (exts : List String)
    (hnofile : cat ∉ files2.map FileE.name) (hnil : catNil subdirs2 cat) :
    count_files_in_folder files2 subdirs2 cat exts
      = Except.ok (((catFiles subdirs2 cat).filter
          (fun m => endsWithAny (strLower m) exts)).length) := by
  unfold count_files_in_folder catFiles
  cases hf : SubdirList.find? subdirs2 cat with
  | some dd =>
    cases dd with
    | node db dfs dsub =>
      have hsub : dsub = SubdirList.nil := hnil _ hf
      subst hsub
      simp [DirNode.entryNames, SubdirList.names, DirNode.filesOf]
  | none =>
    rw [any_name_eq_false hnofile]
    rfl

/-- The hypotheses carried through the per-file loop in the clean-run
analysis: every pending file is a target with a distinct, present name, the
codec succeeds on pending HEIC files, no file bears a reserved name, and the
category subfolders (when present) are flat and collision-free. -/
def cleanHyp (todo files : List FileE) (subdirs : SubdirList) : Prop :=
  (∀ g ∈ todo, classify g.name ≠ Cat.none) ∧
  (∀ g ∈ todo, classify g.name = Cat.heic → g.convOk = true) ∧
  (todo.map FileE.name).Nodup ∧
  (∀ n ∈ todo.map FileE.name, n ∈ files.map FileE.name) ∧
  "heic" ∉ files.map FileE.name ∧
  "mov" ∉ files.map FileE.name ∧
  "mp4" ∉ files.map FileE.name ∧
  (∀ cat ∈ (["heic", "mov", "mp4"] : List String), catNil subdirs cat) ∧
  (∀ g ∈ todo, ∀ cat ∈ (["heic", "mov", "mp4"] : List String),
    g.name ∉ catFiles subdirs cat)

/-- The conclusions of the clean-run analysis of the per-file loop: every
pending file is moved (no skips, no failures, no conversion errors), no file
with a reserved name appears, the category subfolders stay flat, and each
subfolder's listing is extended by exactly the names of the pending files of
its category, in order. -/
def cleanConc (todo files : List FileE) (subdirs : SubdirList) (stats : RunStats) : Prop :=
  (processFiles todo files subdirs stats).2.2.moves = stats.moves + todo.length ∧
  (processFiles todo files subdirs stats).2.2.moveSkips = stats.moveSkips ∧
  (processFiles todo files subdirs stats).2.2.moveFails = stats.moveFails ∧
  (processFiles todo files subdirs stats).2.2.convErrors = stats.convErrors ∧
  (processFiles todo files subdirs stats).2.2.mismatches = stats.mismatches ∧
  (processFiles todo files subdirs stats).2.2.verifyErrors = stats.verifyErrors ∧
  "heic" ∉ (processFiles todo files subdirs stats).1.map FileE.name ∧
  "mov" ∉ (processFiles todo files subdirs stats).1.map FileE.name ∧
  "mp4" ∉ (processFiles todo files subdirs stats).1.map FileE.name ∧
  (∀ cat ∈ (["heic", "mov", "mp4"] : List String),
    catNil (processFiles todo files subdirs stats).2.1 cat) ∧
  (∀ cat ∈ (["heic", "mov", "mp4"] : List String),
    catFiles (processFiles todo files subdirs stats).2.1 cat
      = catFiles subdirs cat
        ++ (todo.filter (fun g => catFolder (classify g.name) == cat)).map FileE.name)

/-- One step of the clean-run analysis: the head file moves successfully
into its category folder and the loop invariant carries over to the tail. -/
theorem processFiles_clean_move (f : FileE) (rest files1 : List FileE)
    (subdirs : SubdirList) (stats1 : RunStats) (cat : String)
    (hfold : catFolder (classify f.name) = cat)
    (hyp : cleanHyp (f :: rest) files1 subdirs)
    (IH : ∀ fsx (sdx : SubdirList) (stx : RunStats),
      cleanHyp rest fsx sdx → cleanConc rest fsx sdx stx) :
    ∃ fs2 sd2,
      safe_move_run f.name cat files1 subdirs = (MoveOutcome.moved, fs2, sd2) ∧
      (processFiles rest fs2 sd2 stats1).2.2.moves = stats1.moves + rest.length ∧
      (processFiles rest fs2 sd2 stats1).2.2.moveSkips = stats1.moveSkips ∧
      (processFiles rest fs2 sd2 stats1).2.2.moveFails = stats1.moveFails ∧
      (processFiles rest fs2 sd2 stats1).2.2.convErrors = stats1.convErrors ∧
      (processFiles rest fs2 sd2 stats1).2.2.mismatches = stats1.mismatches ∧
      (processFiles rest fs2 sd2 stats1).2.2.verifyErrors = stats1.verifyErrors ∧
      "heic" ∉ (processFiles rest fs2 sd2 stats1).1.map FileE.name ∧
      "mov" ∉ (processFiles rest fs2 sd2 stats1).1.map FileE.name ∧
      "mp4" ∉ (processFiles rest fs2 sd2 stats1).1.map FileE.name ∧
      (∀ c ∈ (["heic", "mov", "mp4"] : List String),
        catNil (processFiles rest fs2 sd2 stats1).2.1 c) ∧
      (∀ c ∈ (["heic", "mov", "mp4"] : List String),
        catFiles (processFiles rest fs2 sd2 stats1).2.1 c
          = catFiles subdirs c
            ++ ((f :: rest).filter
                (fun g => catFolder (classify g.name) == c)).map FileE.name) := by
  obtain ⟨htgt, hconv, hnd, hmem, hh, hm, h4, hnil, hdisj⟩ := hyp
  have hf0 : classify f.name ≠ Cat.none := htgt f (List.mem_cons_self f rest)
  have hcat3 : cat = "heic" ∨ cat = "mov" ∨ cat = "mp4" := by
    rcases catFolder_mem hf0 with h | h | h
    · exact Or.inl (hfold.symm.trans h)
    · exact Or.inr (Or.inl (hfold.symm.trans h))
    · exact Or.inr (Or.inr (hfold.symm.trans h))
  have hcatmem : cat ∈ (["heic", "mov", "mp4"] : List String) := by
    rcases hcat3 with rfl | rfl | rfl <;> simp
  have h1 : cat ∉ files1.map FileE.name := by
    rcases hcat3 with rfl | rfl | rfl <;> assumption
  have h2 : f.name ∈ files1.map FileE.name := hmem f.name (by simp)
  have h3 : catNil subdirs cat := hnil cat hcatmem
  have h4d : f.name ∉ catFiles subdirs cat := hdisj f (List.mem_cons_self f rest) cat hcatmem
  obtain ⟨fs2, sd2, hrun, hnames2, hcatf, hpres, hnil2⟩ :=
    safe_move_run_move f cat files1 subdirs h1 h2 h3 h4d
  rw [List.map_cons] at hnd
  have hnotin : f.name ∉ rest.map FileE.name := (List.nodup_cons.mp hnd).1
  have hndrest : (rest.map FileE.name).Nodup := (List.nodup_cons.mp hnd).2
  have hyp2 : cleanHyp rest fs2 sd2 := by
    refine ⟨fun g hg => htgt g (List.mem_cons_of_mem _ hg),
            fun g hg => hconv g (List.mem_cons_of_mem _ hg),
            hndrest, ?_, ?_, ?_, ?_, ?_, ?_⟩
    · intro n hn
      rw [hnames2]
      have hne : n ≠ f.name := fun e => hnotin (e ▸ hn)
      refine (List.mem_erase_of_ne hne).mpr (hmem n ?_)
      rw [List.map_cons]
      exact List.mem_cons_of_mem _ hn
    · rw [hnames2]
      intro hmm2
      exact hh (List.mem_of_mem_erase hmm2)
    · rw [hnames2]
      intro hmm2
      exact hm (List.mem_of_mem_erase hmm2)
    · rw [hnames2]
      intro hmm2
      exact h4 (List.mem_of_mem_erase hmm2)
    · intro c hc
      by_cases hcc : c = cat
      · subst hcc
        exact hnil2
      · intro dd hdd
        rw [hpres c hcc] at hdd
        exact hnil c hc dd hdd
    · intro g hg c hc
      by_cases hcc : c = cat
      · subst hcc
        rw [hcatf]
        intro hmem2
        rcases List.mem_append.mp hmem2 with hx | hx
        · exact hdisj g (List.mem_cons_of_mem _ hg) c hc hx
        · have hgn : g.name = f.name := by simpa using hx
          exact hnotin (hgn ▸ List.mem_map_of_mem FileE.name hg)
      · rw [catFiles_congr (hpres c hcc)]
        exact hdisj g (List.mem_cons_of_mem _ hg) c hc
  obtain ⟨c1, c2, c3, c4, c5, c6, c7, c8, c9, c10, c11⟩ := IH fs2 sd2 stats1 hyp2
  refine ⟨fs2, sd2, hrun, c1, c2, c3, c4, c5, c6, c7, c8, c9, c10, ?_⟩
  intro c hc
  rw [c11 c hc]
  by_cases hcc : c = cat
  · subst hcc
    rw [hcatf]
    have hpf : (catFolder (classify f.name) == c) = true := by
      rw [hfold]
      simp
    simp [List.filter_cons, hpf, List.append_assoc]
  · rw [catFiles_congr (hpres c hcc)]
    have hpf : (catFolder (classify f.name) == c) = false := by
      rw [hfold]
      exact beq_eq_false_iff_ne.mpr (fun e => hcc e.symm)
    simp [List.filter_cons, hpf]

/-- Clean-run analysis of the per-file loop: under the invariant, every
pending file is moved, nothing is skipped or fails, and the category
subfolders receive exactly the pending names of their category. -/
theorem processFiles_clean :
    ∀ (todo files : List FileE) (subdirs : SubdirList) (stats : RunStats),
      cleanHyp todo files subdirs → cleanConc todo files subdirs stats := by
  intro todo
  induction todo with
  | nil =>
    intro files subdirs stats hyp
    obtain ⟨_, _, _, _, hh, hm, h4, hnil, _⟩ := hyp
    exact ⟨by simp [processFiles], rfl, rfl, rfl, rfl, rfl, hh, hm, h4, hnil,
      fun c hc => by simp [processFiles]⟩
  | cons f rest ih =>
    intro files subdirs stats hyp
    obtain ⟨htgt, hconv, hnd, hmem, hh, hm, h4, hnil, hdisj⟩ := hyp
    have hyp0 : cleanHyp (f :: rest) files subdirs :=
      ⟨htgt, hconv, hnd, hmem, hh, hm, h4, hnil, hdisj⟩
    have hf0 : classify f.name ≠ Cat.none := htgt f (List.mem_cons_self f rest)
    unfold cleanConc
    cases hcl : classify f.name with
    | none => exact absurd hcl hf0
    | heic =>
      by_cases hjpg : entryExists files subdirs (splitextBase f.name ++ ".jpg") = true
      · obtain ⟨fs2, sd2, hrun, d1, d2, d3, d4, d5, d6, d7, d8, d9, d10, d11⟩ :=
          processFiles_clean_move f rest files subdirs (stats.bump MoveOutcome.moved)
            "heic" (by rw [hcl]; rfl) hyp0 ih
        have heq : processFiles (f :: rest) files subdirs stats
            = processFiles rest fs2 sd2 (stats.bump MoveOutcome.moved) := by
          conv_lhs => unfold processFiles
          rw [hcl]
          dsimp only
          rw [if_pos hjpg, hrun]
        rw [heq]
        exact ⟨by rw [d1]; simp [RunStats.bump]; omega, by rw [d2]; rfl, by rw [d3]; rfl,
          by rw [d4]; rfl, by rw [d5]; rfl, by rw [d6]; rfl, d7, d8, d9, d10, d11⟩
      · have hcOk : f.convOk = true := hconv f (List.mem_cons_self f rest) hcl
        have hyp1 : cleanHyp (f :: rest)
            (files ++ [⟨splitextBase f.name ++ ".jpg", f.content, true⟩]) subdirs := by
          refine ⟨htgt, hconv, hnd, ?_, ?_, ?_, ?_, hnil, hdisj⟩
          · intro n hn
            rw [List.map_append]
            exact List.mem_append_left _ (hmem n hn)
          · rw [List.map_append]
            intro hx
            rcases List.mem_append.mp hx with hx | hx
            · exact hh hx
            · have he : "heic" = splitextBase f.name ++ ".jpg" := by simpa using hx
              exact @ne_append_jpg_of "heic" (by decide) (splitextBase f.name) he.symm
          · rw [List.map_append]
            intro hx
            rcases List.mem_append.mp hx with hx | hx
            · exact hm hx
            · have he : "mov" = splitextBase f.name ++ ".jpg" := by simpa using hx
              exact @ne_append_jpg_of "mov" (by decide) (splitextBase f.name) he.symm
          · rw [List.map_append]
            intro hx
            rcases List.mem_append.mp hx with hx | hx
            · exact h4 hx
            · have he : "mp4" = splitextBase f.name ++ ".jpg" := by simpa using hx
              exact @ne_append_jpg_of "mp4" (by decide) (splitextBase f.name) he.symm
        obtain ⟨fs2, sd2, hrun, d1, d2, d3, d4, d5, d6, d7, d8, d9, d10, d11⟩ :=
          processFiles_clean_move f rest
            (files ++ [⟨splitextBase f.name ++ ".jpg", f.content, true⟩]) subdirs
            (stats.addConv.bump MoveOutcome.moved) "heic" (by rw [hcl]; rfl) hyp1 ih
        have heq : processFiles (f :: rest) files subdirs stats
            = processFiles rest fs2 sd2 (stats.addConv.bump MoveOutcome.moved) := by
          conv_lhs => unfold processFiles
          rw [hcl]
          dsimp only
          rw [if_neg hjpg, hcOk, if_pos rfl, hrun]
        rw [heq]
        exact ⟨by rw [d1]; simp [RunStats.bump, RunStats.addConv]; omega, by rw [d2]; rfl,
          by rw [d3]; rfl, by rw [d4]; rfl, by rw [d5]; rfl, by rw [d6]; rfl, d7, d8, d9, d10, d11⟩
    | mov =>
      obtain ⟨fs2, sd2, hrun, d1, d2, d3, d4, d5, d6, d7, d8, d9, d10, d11⟩ :=
        processFiles_clean_move f rest files subdirs (stats.bump MoveOutcome.moved)
          "mov" (by rw [hcl]; rfl) hyp0 ih
      have heq : processFiles (f :: rest) files subdirs stats
          = processFiles rest fs2 sd2 (stats.bump MoveOutcome.moved) := by
        conv_lhs => unfold processFiles
        rw [hcl]
        dsimp only
        rw [hrun]
      rw [heq]
      exact ⟨by rw [d1]; simp [RunStats.bump]; omega, by rw [d2]; rfl, by rw [d3]; rfl,
        by rw [d4]; rfl, by rw [d5]; rfl, by rw [d6]; rfl, d7, d8, d9, d10, d11⟩
    | mp4 =>
      obtain ⟨fs2, sd2, hrun, d1, d2, d3, d4, d5, d6, d7, d8, d9, d10, d11⟩ :=
        processFiles_clean_move f rest files subdirs (stats.bump MoveOutcome.moved)
          "mp4" (by rw [hcl]; rfl) hyp0 ih
      have heq : processFiles (f :: rest) files subdirs stats
          = processFiles rest fs2 sd2 (stats.bump MoveOutcome.moved) := by
        conv_lhs => unfold processFiles
        rw [hcl]
        dsimp only
        rw [hrun]
      rw [heq]
      exact ⟨by rw [d1]; simp [RunStats.bump]; omega, by rw [d2]; rfl, by rw [d3]; rfl,
        by rw [d4]; rfl, by rw [d5]; rfl, by rw [d6]; rfl, d7, d8, d9, d10, d11⟩

theorem countP_filter_heic (files : List FileE) :
    (files.filter (fun f => classify f.name != Cat.none)).countP
        (fun g => catFolder (classify g.name) == "heic")
      = files.countP (fun f => classify f.name == Cat.heic) := by
  induction files with
  | nil => rfl
  | cons f fs ih =>
    rw [List.filter_cons]
    cases hc : classify f.name with
    | none =>
      rw [if_neg (by simp), List.countP_cons, ih]
      simp [hc]
    | heic =>
      rw [if_pos (by rfl), List.countP_cons, List.countP_cons, ih]
      simp [hc, catFolder]
    | mov =>
      rw [if_pos (by rfl), List.countP_cons, List.countP_cons, ih]
      simp [hc, catFolder]
    | mp4 =>
      rw [if_pos (by rfl), List.countP_cons, List.countP_cons, ih]
      simp [hc, catFolder]

theorem countP_filter_mov (files : List FileE) :
    (files.filter (fun f => classify f.name != Cat.none)).countP
        (fun g => catFolder (classify g.name) == "mov")
      = files.countP (fun f => classify f.name == Cat.mov) := by
  induction files with
  | nil => rfl
  | cons f fs ih =>
    rw [List.filter_cons]
    cases hc : classify f.name with
    | none =>
      rw [if_neg (by simp), List.countP_cons, ih]
      simp [hc]
    | heic =>
      rw [if_pos (by rfl), List.countP_cons, List.countP_cons, ih]
      simp [hc, catFolder]
    | mov =>
      rw [if_pos (by rfl), List.countP_cons, List.countP_cons, ih]
      simp [hc, catFolder]
    | mp4 =>
      rw [if_pos (by rfl), List.countP_cons, List.countP_cons, ih]
      simp [hc, catFolder]

theorem countP_filter_mp4 (files : List FileE) :
    (files.filter (fun f => classify f.name != Cat.none)).countP
        (fun g => catFolder (classify g.name) == "mp4")
      = files.countP (fun f => classify f.name == Cat.mp4) := by
  induction files with
  | nil => rfl
  | cons f fs ih =>
    rw [List.filter_cons]
    cases hc : classify f.name with
    | none =>
      rw [if_neg (by simp), List.countP_cons, ih]
      simp [hc]
    | heic =>
      rw [if_pos (by rfl), List.countP_cons, List.countP_cons, ih]
      simp [hc, catFolder]
    | mov =>
      rw [if_pos (by rfl), List.countP_cons, List.countP_cons, ih]
      simp [hc, catFolder]
    | mp4 =>
      rw [if_pos (by rfl), List.countP_cons, List.countP_cons, ih]
      simp [hc, catFolder]

/-- C6: organizing a directory of distinctly named files with working codecs,
no reserved file names and no pre-existing subfolders moves every target
file (no skips, failures or conversion errors), and the verification recount
of each freshly created subfolder returns exactly the expected per-category
tallies, so no mismatch is reported. -/
theorem C6_theorem (nm : String) (files : List FileE)
    (hres : reserved nm = false)
    (hnd : (files.map FileE.name).Nodup)
    (hconv : ∀ f ∈ files, classify f.name = Cat.heic → f.convOk = true)
    (hcat : ∀ f ∈ files, f.name ≠ "heic" ∧ f.name ≠ "mov" ∧ f.name ≠ "mp4") :
    (process_directory nm (DirNode.node false files SubdirList.nil)).2.mismatches = 0 ∧
    (process_directory nm (DirNode.node false files SubdirList.nil)).2.verifyErrors = 0 ∧
    (process_directory nm (DirNode.node false files SubdirList.nil)).2.moveSkips = 0 ∧
    (process_directory nm (DirNode.node false files SubdirList.nil)).2.moveFails = 0 ∧
    (process_directory nm (DirNode.node false files SubdirList.nil)).2.convErrors = 0 ∧
    (process_directory nm (DirNode.node false files SubdirList.nil)).2.moves
      = files.countP (fun f => classify f.name != Cat.none) ∧
    count_files_in_folder
        (process_directory nm (DirNode.node false files SubdirList.nil)).1.filesOf
        (process_directory nm (DirNode.node false files SubdirList.nil)).1.subsOf
        "heic" heicExts
      = Except.ok (files.countP (fun f => classify f.name == Cat.heic)) ∧
    count_files_in_folder
        (process_directory nm (DirNode.node false files SubdirList.nil)).1.filesOf
        (process_directory nm (DirNode.node false files SubdirList.nil)).1.subsOf
        "mov" movExts
      = Except.ok (files.countP (fun f => classify f.name == Cat.mov)) ∧
    count_files_in_folder
        (process_directory nm (DirNode.node false files SubdirList.nil)).1.filesOf
        (process_directory nm (DirNode.node false files SubdirList.nil)).1.subsOf
        "mp4" mp4Exts
      = Except.ok (files.countP (fun f => classify f.name == Cat.mp4)) := by
  have hh : "heic" ∉ files.map FileE.name := by
    intro hx
    rcases List.mem_map.mp hx with ⟨g, hg, he⟩
    exact (hcat g hg).1 he
  have hm : "mov" ∉ files.map FileE.name := by
    intro hx
    rcases List.mem_map.mp hx with ⟨g, hg, he⟩
    exact (hcat g hg).2.1 he
  have h4m : "mp4" ∉ files.map FileE.name := by
    intro hx
    rcases List.mem_map.mp hx with ⟨g, hg, he⟩
    exact (hcat g hg).2.2 he
  have hnilnil : ∀ c ∈ (["heic", "mov", "mp4"] : List String),
      catNil SubdirList.nil c := by
    intro c _ dd hdd
    simp [SubdirList.find?] at hdd
  by_cases hzero : files.countP (fun f => classify f.name == Cat.heic)
      + files.countP (fun f => classify f.name == Cat.mov)
      + files.countP (fun f => classify f.name == Cat.mp4) = 0
  · have heq : process_directory nm (DirNode.node false files SubdirList.nil)
        = (DirNode.node false files SubdirList.nil, RunStats.zero) := by
      conv_lhs => unfold process_directory
      rw [hres]
      rw [if_neg (by simp : ¬(false = true)), if_neg (by simp : ¬(false = true))]
      dsimp only
      rw [if_pos hzero]
      simp [processSubdirs]
    rw [heq]
    have hsplit := countP_classify_split files
    refine ⟨rfl, rfl, rfl, rfl, rfl, by simp [RunStats.zero]; omega, ?_, ?_, ?_⟩
    all_goals
      dsimp only [DirNode.filesOf, DirNode.subsOf]
      rw [count_in_folder_of _ _ _ _ (by assumption) (hnilnil _ (by simp))]
      have hz : files.countP (fun f => classify f.name == Cat.heic) = 0 ∧
          files.countP (fun f => classify f.name == Cat.mov) = 0 ∧
          files.countP (fun f => classify f.name == Cat.mp4) = 0 := by omega
    · rw [hz.1]; rfl
    · rw [hz.2.1]; rfl
    · rw [hz.2.2]; rfl
  · have hyp : cleanHyp (files.filter (fun f => classify f.name != Cat.none))
        files SubdirList.nil := by
      refine ⟨?_, ?_, ?_, ?_, hh, hm, h4m, hnilnil, ?_⟩
      · intro g hg
        have := (List.mem_filter.mp hg).2
        simpa using this
      · intro g hg
        exact hconv g (List.mem_filter.mp hg).1
      · exact hnd.sublist (List.Sublist.map _ (List.filter_sublist files))
      · intro n hn
        rcases List.mem_map.mp hn with ⟨g, hg, rfl⟩
        exact List.mem_map_of_mem _ (List.mem_filter.mp hg).1
      · intro g _ c _
        simp [catFiles, SubdirList.find?]
    obtain ⟨e1, e2, e3, e4, e5, e6, e7, e8, e9, e10, e11⟩ :=
      processFiles_clean (files.filter (fun f => classify f.name != Cat.none))
        files SubdirList.nil RunStats.zero hyp
    have hacount : count_files_in_folder
        (processFiles (files.filter (fun f => classify f.name != Cat.none))
          files SubdirList.nil RunStats.zero).1
        (processFiles (files.filter (fun f => classify f.name != Cat.none))
          files SubdirList.nil RunStats.zero).2.1 "heic" heicExts
        = Except.ok (files.countP (fun f => classify f.name == Cat.heic)) := by
      rw [count_in_folder_of _ _ _ _ e7 (e10 _ (by simp)), e11 _ (by simp)]
      have hall : ∀ m ∈ ((files.filter (fun f => classify f.name != Cat.none)).filter
          (fun g => catFolder (classify g.name) == "heic")).map FileE.name,
          endsWithAny (strLower m) heicExts = true := by
        intro m hm2
        rcases List.mem_map.mp hm2 with ⟨g, hg2, rfl⟩
        have hq := (List.mem_filter.mp hg2).2
        have hgheic : classify g.name = Cat.heic := catFolder_eq_heic.mp (by simpa using hq)
        exact classify_heic_inv hgheic
      rw [show catFiles SubdirList.nil "heic" = [] from rfl, List.nil_append,
        List.filter_eq_self.mpr hall, List.length_map,
        ← List.countP_eq_length_filter, countP_filter_heic]
    have hbcount : count_files_in_folder
        (processFiles (files.filter (fun f => classify f.name != Cat.none))
          files SubdirList.nil RunStats.zero).1
        (processFiles (files.filter (fun f => classify f.name != Cat.none))
          files SubdirList.nil RunStats.zero).2.1 "mov" movExts
        = Except.ok (files.countP (fun f => classify f.name == Cat.mov)) := by
      rw [count_in_folder_of _ _ _ _ e8 (e10 _ (by simp)), e11 _ (by simp)]
      have hall : ∀ m ∈ ((files.filter (fun f => classify f.name != Cat.none)).filter
          (fun g => catFolder (classify g.name) == "mov")).map FileE.name,
          endsWithAny (strLower m) movExts = true := by
        intro m hm2
        rcases List.mem_map.mp hm2 with ⟨g, hg2, rfl⟩
        have hq := (List.mem_filter.mp hg2).2
        have hgmov : classify g.name = Cat.mov := catFolder_eq_mov.mp (by simpa using hq)
        exact (classify_mov_inv hgmov).2
      rw [show catFiles SubdirList.nil "mov" = [] from rfl, List.nil_append,
        List.filter_eq_self.mpr hall, List.length_map,
        ← List.countP_eq_length_filter, countP_filter_mov]
    have hccount : count_files_in_folder
        (processFiles (files.filter (fun f => classify f.name != Cat.none))
          files SubdirList.nil RunStats.zero).1
        (processFiles (files.filter (fun f => classify f.name != Cat.none))
          files SubdirList.nil RunStats.zero).2.1 "mp4" mp4Exts
        = Except.ok (files.countP (fun f => classify f.name == Cat.mp4)) := by
      rw [count_in_folder_of _ _ _ _ e9 (e10 _ (by simp)), e11 _ (by simp)]
      have hall : ∀ m ∈ ((files.filter (fun f => classify f.name != Cat.none)).filter
          (fun g => catFolder (classify g.name) == "mp4")).map FileE.name,
          endsWithAny (strLower m) mp4Exts = true := by
        intro m hm2
        rcases List.mem_map.mp hm2 with ⟨g, hg2, rfl⟩
        have hq := (List.mem_filter.mp hg2).2
        have hgmp4 : classify g.name = Cat.mp4 := catFolder_eq_mp4.mp (by simpa using hq)
        exact (classify_mp4_inv hgmp4).2.2
      rw [show catFiles SubdirList.nil "mp4" = [] from rfl, List.nil_append,
        List.filter_eq_self.mpr hall, List.length_map,
        ← List.countP_eq_length_filter, countP_filter_mp4]
    have hvs : verifyStats
        (processFiles (files.filter (fun f => classify f.name != Cat.none))
          files SubdirList.nil RunStats.zero).1
        (processFiles (files.filter (fun f => classify f.name != Cat.none))
          files SubdirList.nil RunStats.zero).2.1
        (files.countP (fun f => classify f.name == Cat.heic))
        (files.countP (fun f => classify f.name == Cat.mov))
        (files.countP (fun f => classify f.name == Cat.mp4))
        = RunStats.zero := by
      unfold verifyStats
      rw [hacount, hbcount, hccount]
      dsimp only
      rw [if_pos ⟨rfl, rfl, rfl⟩]
    have heq : process_directory nm (DirNode.node false files SubdirList.nil)
        = (DirNode.node false
            (processFiles (files.filter (fun f => classify f.name != Cat.none))
              files SubdirList.nil RunStats.zero).1
            (processFiles (files.filter (fun f => classify f.name != Cat.none))
              files SubdirList.nil RunStats.zero).2.1,
           RunStats.zero
             + (processFiles (files.filter (fun f => classify f.name != Cat.none))
                 files SubdirList.nil RunStats.zero).2.2
             + verifyStats
                 (processFiles (files.filter (fun f => classify f.name != Cat.none))
                   files SubdirList.nil RunStats.zero).1
                 (processFiles (files.filter (fun f => classify f.name != Cat.none))
                   files SubdirList.nil RunStats.zero).2.1
                 (files.countP (fun f => classify f.name == Cat.heic))
                 (files.countP (fun f => classify f.name == Cat.mov))
                 (files.countP (fun f => classify f.name == Cat.mp4))) := by
      conv_lhs => unfold process_directory
      rw [hres]
      rw [if_neg (by simp : ¬(false = true)), if_neg (by simp : ¬(false = true))]
      dsimp only
      rw [if_neg hzero]
      rfl
    rw [heq, hvs]
    have hlen : (files.filter (fun f => classify f.name != Cat.none)).length
        = files.countP (fun f => classify f.name != Cat.none) :=
      (List.countP_eq_length_filter _ _).symm
    refine ⟨?_, ?_, ?_, ?_, ?_, ?_, ?_, ?_, ?_⟩
    · simp only [RunStats.add_mismatches]
      rw [e5]
      rfl
    · simp only [RunStats.add_verifyErrors]
      rw [e6]
      rfl
    · simp only [RunStats.add_moveSkips]
      rw [e2]
      rfl
    · simp only [RunStats.add_moveFails]
      rw [e3]
      rfl
    · simp only [RunStats.add_convErrors]
      rw [e4]
      rfl
    · simp only [RunStats.add_moves]
      rw [e1, hlen]
      show 0 + (0 + _) + 0 = _
      omega
    · dsimp only [DirNode.filesOf, DirNode.subsOf]
      exact hacount
    · dsimp only [DirNode.filesOf, DirNode.subsOf]
      exact hbcount
    · dsimp only [DirNode.filesOf, DirNode.subsOf]
      exact hccount

/-- Witness for C6 at a concrete directory with one file of each category:
all three are moved and the verification reports no mismatch. -/
theorem C6_witness :
    (process_directory "root"
        (DirNode.node false
          [⟨"a.heic", 1, true⟩, ⟨"b.mov", 2, true⟩, ⟨"c.mp4", 3, true⟩]
          SubdirList.nil)).2.mismatches = 0 :=
  ( C6_theorem "root"
    [⟨"a.heic", 1, true⟩, ⟨"b.mov", 2, true⟩, ⟨"c.mp4", 3, true⟩]
    (by decide) (by decide) (by decide) (by decide)).1

/-- Witness for C7 at concrete files `a.heic` (with a failing codec flag)
and pre-existing `a.jpg`. -/
theorem C7_witness :
    process_directory "d"
        (DirNode.node false [⟨"a.jpg", 9, true⟩, ⟨"a.heic", 4, false⟩] SubdirList.nil)
      = (DirNode.node false [⟨"a.jpg", 9, true⟩]
          (SubdirList.cons "heic" (DirNode.node false [⟨"a.heic", 4, false⟩] SubdirList.nil)
            SubdirList.nil),
         ⟨0, 0, 1, 0, 0, 0, 0⟩) :=
  C7_theorem ⟨"a.heic", 4, false⟩ ⟨"a.jpg", 9, true⟩ (by decide) (by decide)

/-! ### Stability: the state a directory reaches after a clean organizing run

A target file that remains in a directory after a run does so because its
destination already exists (skip) or the destination folder name is taken by
a plain file (failure); either condition persists, which is what makes a
second run a no-op.  `stableInName` captures both conditions, together with
the presence of the conversion target for HEIC files. -/

/-- The destination of a move for a file named `n` towards subfolder `cat`
is already occupied: either the subfolder exists and contains an entry named
`n` (`safe_move` skips), or the subfolder name denotes a plain file
(`shutil.move` raises and `safe_move` returns false). -/
def destSkip (n cat : String) (files : List FileE) (subdirs : SubdirList) : Prop :=
  match SubdirList.find? subdirs cat with
  | some dd => n ∈ dd.entryNames
  | Option.none => cat ∈ files.map FileE.name

/-- Processing the file named `n` in this directory state mutates nothing:
for a HEIC file the conversion target already exists, and the move hits a
skip or failure condition. -/
def stableInName (n : String) (files : List FileE) (subdirs : SubdirList) : Prop :=
  (classify n = Cat.heic → entryExists files subdirs (splitextBase n ++ ".jpg") = true) ∧
  destSkip n (catFolder (classify n)) files subdirs

/-- How one step of the per-file loop may change the directory state:
unclassified file names persist, existing subfolders persist and only gain
entries, and a missing subfolder whose name is taken by an unclassified file
stays missing. -/
def stepExtends (files : List FileE) (subdirs : SubdirList)
    (files2 : List FileE) (subdirs2 : SubdirList) : Prop :=
  (∀ x, classify x = Cat.none → x ∈ files.map FileE.name → x ∈ files2.map FileE.name) ∧
  (∀ x dd, SubdirList.find? subdirs x = some dd →
    ∃ dd2, SubdirList.find? subdirs2 x = some dd2 ∧
      ∀ y ∈ dd.entryNames, y ∈ dd2.entryNames) ∧
  (∀ x, classify x = Cat.none → x ∈ files.map FileE.name →
    SubdirList.find? subdirs x = Option.none → SubdirList.find? subdirs2 x = Option.none)

/-- The subdirectory list as a list of name/directory pairs. -/
def SubdirList.toList : SubdirList → List (String × DirNode)
  | SubdirList.nil => []
  | SubdirList.cons n d rest => (n, d) :: SubdirList.toList rest

theorem stepExtends_refl (files : List FileE) (subdirs : SubdirList) :
    stepExtends files subdirs files subdirs :=
  ⟨fun _ _ h => h, fun _ dd h => ⟨dd, h, fun _ hy => hy⟩, fun _ _ _ h => h⟩

theorem stepExtends_trans {f1 f2 f3 : List FileE} {s1 s2 s3 : SubdirList}
    (h12 : stepExtends f1 s1 f2 s2) (h23 : stepExtends f2 s2 f3 s3) :
    stepExtends f1 s1 f3 s3 := by
  obtain ⟨a1, b1, c1⟩ := h12
  obtain ⟨a2, b2, c2⟩ := h23
  refine ⟨fun x hx hm => a2 x hx (a1 x hx hm), ?_, ?_⟩
  · intro x dd h
    obtain ⟨dd2, h2, hsub⟩ := b1 x dd h
    obtain ⟨dd3, h3, hsub2⟩ := b2 x dd2 h2
    exact ⟨dd3, h3, fun y hy => hsub2 y (hsub y hy)⟩
  · intro x hx hm hn
    exact c2 x hx (a1 x hx hm) (c1 x hx hm hn)

theorem any_name_eq_true_of_mem {files : List FileE} {n : String}
    (h : n ∈ files.map FileE.name) :
    (files.any fun g => decide (g.name = n)) = true := by
  rw [List.any_eq_true]
  rcases List.mem_map.mp h with ⟨g, hg, he⟩
  exact ⟨g, hg, by simpa using he⟩

theorem find?_isSome_of_mem_names {l : SubdirList} {n : String}
    (h : n ∈ SubdirList.names l) : (SubdirList.find? l n).isSome = true := by
  induction l using SubdirList.indOn with
  | h0 => simp [SubdirList.names] at h
  | h1 m d rest ih =>
    unfold SubdirList.names at h
    unfold SubdirList.find?
    rcases List.mem_cons.mp h with he | hmem
    · rw [if_pos he.symm]
      rfl
    · by_cases hm : m = n
      · rw [if_pos hm]
        rfl
      · rw [if_neg hm]
        exact ih hmem

theorem mem_names_of_find?_isSome {l : SubdirList} {n : String}
    (h : (SubdirList.find? l n).isSome = true) : n ∈ SubdirList.names l := by
  induction l using SubdirList.indOn with
  | h0 => simp [SubdirList.find?] at h
  | h1 m d rest ih =>
    unfold SubdirList.find? at h
    unfold SubdirList.names
    by_cases hm : m = n
    · exact List.mem_cons.mpr (Or.inl hm.symm)
    · rw [if_neg hm] at h
      exact List.mem_cons.mpr (Or.inr (ih h))

theorem extractNamed_eq_some_spec :
    ∀ {files : List FileE} {m : String} {f2 : FileE} {files2 : List FileE},
      extractNamed files m = (some f2, files2) →
      f2.name = m ∧ files2.map FileE.name = (files.map FileE.name).erase m ∧
        ∀ g ∈ files2, g ∈ files
  | [], m, f2, files2 => by intro h; simp [extractNamed] at h
  | g :: gs, m, f2, files2 => by
    intro h
    unfold extractNamed at h
    by_cases hg : g.name = m
    · rw [if_pos hg] at h
      injection h with h1 h2
      injection h1 with h1
      subst h1
      subst h2
      refine ⟨hg, ?_, fun x hx => List.mem_cons_of_mem _ hx⟩
      rw [← hg, List.map_cons, List.erase_cons_head]
    · rw [if_neg hg] at h
      injection h with h1 h2
      subst h2
      have hx : extractNamed gs m = (some f2, (extractNamed gs m).2) := by rw [← h1]
      obtain ⟨e1, e2, e3⟩ := extractNamed_eq_some_spec hx
      refine ⟨e1, ?_, ?_⟩
      · rw [List.map_cons, List.map_cons, e2, List.erase_cons_tail (by simp [hg])]
      · intro x hxm
        rcases List.mem_cons.mp hxm with he | hmem
        · exact he ▸ List.mem_cons_self _ _
        · exact List.mem_cons_of_mem _ (e3 x hmem)

/-- `entryExists` for an unclassified name survives a step of the loop. -/
theorem entryExists_extends {files files2 : List FileE} {subdirs subdirs2 : SubdirList}
    (he : stepExtends files subdirs files2 subdirs2) {x : String}
    (hx : classify x = Cat.none) (h : entryExists files subdirs x = true) :
    entryExists files2 subdirs2 x = true := by
  unfold entryExists at h ⊢
  rcases (Bool.or_eq_true _ _).mp h with h1 | h1
  · rcases List.any_eq_true.mp h1 with ⟨g, hg, hgx⟩
    have hmem : x ∈ files.map FileE.name :=
      List.mem_map.mpr ⟨g, hg, by simpa using hgx⟩
    rw [any_name_eq_true_of_mem (he.1 x hx hmem)]
    rfl
  · rcases Option.isSome_iff_exists.mp h1 with ⟨dd, hdd⟩
    obtain ⟨dd2, hdd2, _⟩ := he.2.1 x dd hdd
    rw [hdd2]
    simp

/-- Stability of a target name survives a step of the loop. -/
theorem stableInName_extends {files files2 : List FileE} {subdirs subdirs2 : SubdirList}
    {n : String} (he : stepExtends files subdirs files2 subdirs2)
    (hn : classify n ≠ Cat.none) (hs : stableInName n files subdirs) :
    stableInName n files2 subdirs2 := by
  obtain ⟨hjpg, hskip⟩ := hs
  constructor
  · intro hcl
    exact entryExists_extends he (classify_append_jpg _) (hjpg hcl)
  · unfold destSkip at hskip ⊢
    cases hfind : SubdirList.find? subdirs (catFolder (classify n)) with
    | some dd =>
      rw [hfind] at hskip
      obtain ⟨dd2, hdd2, hsub⟩ := he.2.1 _ dd hfind
      rw [hdd2]
      exact hsub _ hskip
    | none =>
      rw [hfind] at hskip
      have hcatnone : classify (catFolder (classify n)) = Cat.none := by
        rcases catFolder_mem hn with h | h | h <;> rw [h] <;> decide
      rw [he.2.2 _ hcatnone hskip hfind]
      exact he.1 _ hcatnone hskip

theorem find?_push_of_some {l : SubdirList} {x : String} {dd : DirNode}
    (h : SubdirList.find? l x = some dd) (m : String) (d : DirNode) :
    SubdirList.find? (l.push m d) x = some dd := by
  induction l using SubdirList.indOn with
  | h0 => simp [SubdirList.find?] at h
  | h1 n c rest ih =>
    unfold SubdirList.find? at h
    unfold SubdirList.push SubdirList.find?
    by_cases hn : n = x
    · rw [if_pos hn] at h ⊢
      exact h
    · rw [if_neg hn] at h ⊢
      exact ih h

/-- Master specification of `safe_move` as invoked by the orchestrator: the
step only extends the state in the `stepExtends` sense, keeps only records
that were already present, and leaves the moved name's destination occupied
(so a repeat of the same move skips or fails). -/
theorem safe_move_run_master (m cat : String) (files : List FileE)
    (subdirs : SubdirList) (hm : classify m ≠ Cat.none) :
    stepExtends files subdirs
      (safe_move_run m cat files subdirs).2.1 (safe_move_run m cat files subdirs).2.2 ∧
    (∀ g ∈ (safe_move_run m cat files subdirs).2.1, g ∈ files) ∧
    (m ∈ files.map FileE.name →
      destSkip m cat (safe_move_run m cat files subdirs).2.1
        (safe_move_run m cat files subdirs).2.2) := by
  unfold safe_move_run safe_move
  by_cases hex : entryExists files subdirs cat = true
  · rw [if_pos hex]
    unfold safe_move_body
    cases hfind : SubdirList.find? subdirs cat with
    | none =>
      dsimp only
      have hcatfile : cat ∈ files.map FileE.name := by
        unfold entryExists at hex
        rw [hfind] at hex
        rcases (Bool.or_eq_true _ _).mp hex with h1 | h1
        · rcases List.any_eq_true.mp h1 with ⟨g, hg, hgx⟩
          exact List.mem_map.mpr ⟨g, hg, by simpa using hgx⟩
        · simp at h1
      refine ⟨stepExtends_refl _ _, fun g hg => hg, fun _ => ?_⟩
      unfold destSkip
      rw [hfind]
      exact hcatfile
    | some dd =>
      cases dd with
      | node db dfs dsub =>
        dsimp only
        by_cases hcoll : ((dfs.any fun g => decide (g.name = m)) ||
            (SubdirList.find? dsub m).isSome) = true
        · rw [if_pos hcoll]
          refine ⟨stepExtends_refl _ _, fun g hg => hg, fun _ => ?_⟩
          unfold destSkip
          rw [hfind]
          unfold DirNode.entryNames
          rcases (Bool.or_eq_true _ _).mp hcoll with h1 | h1
          · rcases List.any_eq_true.mp h1 with ⟨g, hg, hgx⟩
            exact List.mem_append_left _ (List.mem_map.mpr ⟨g, hg, by simpa using hgx⟩)
          · exact List.mem_append_right _ (mem_names_of_find?_isSome h1)
        · rw [if_neg hcoll, if_pos rfl]
          cases hextr : extractNamed files m with
          | mk fo files2 =>
            cases fo with
            | none =>
              dsimp only
              refine ⟨stepExtends_refl _ _, fun g hg => hg, fun hmem => ?_⟩
              obtain ⟨f2x, files2x, hexx, _, _⟩ := extractNamed_spec hmem
              rw [hexx] at hextr
              injection hextr with h1 h2
              cases h1
            | some f2 =>
              dsimp only
              have hx : extractNamed files m = (some f2, files2) := hextr
              obtain ⟨e1, e2, e3⟩ := extractNamed_eq_some_spec hx
              refine ⟨⟨?_, ?_, ?_⟩, e3, fun _ => ?_⟩
              · intro x hxn hxm
                rw [e2]
                have hne : x ≠ m := by
                  intro e
                  rw [e] at hxn
                  exact hm hxn
                exact (List.mem_erase_of_ne hne).mpr hxm
              · intro x dd0 h0
                by_cases hxc : x = cat
                · subst hxc
                  rw [hfind] at h0
                  injection h0 with h0
                  subst h0
                  refine ⟨_, find?_set_self hfind _, ?_⟩
                  intro y hy
                  unfold DirNode.entryNames at hy ⊢
                  rcases List.mem_append.mp hy with hy1 | hy1
                  · refine List.mem_append_left _ ?_
                    rw [List.map_append]
                    exact List.mem_append_left _ hy1
                  · exact List.mem_append_right _ hy1
                · exact ⟨dd0, by rw [find?_set_ne hxc]; exact h0, fun y hy => hy⟩
              · intro x hxn hxm h0
                have hxc : x ≠ cat := by
                  intro e
                  rw [e, hfind] at h0
                  cases h0
                rw [find?_set_ne hxc]
                exact h0
              · unfold destSkip
                rw [find?_set_self hfind]
                unfold DirNode.entryNames
                refine List.mem_append_left _ ?_
                rw [List.map_append]
                refine List.mem_append_right _ ?_
                rw [← e1]
                exact List.mem_map_of_mem _ (List.mem_cons_self _ _)
  · rw [if_neg hex, if_pos rfl]
    have hnofile : cat ∉ files.map FileE.name := by
      intro hmem
      apply hex
      unfold entryExists
      rw [any_name_eq_true_of_mem hmem]
      rfl
    have hnofind : SubdirList.find? subdirs cat = Option.none := by
      cases hf : SubdirList.find? subdirs cat with
      | none => rfl
      | some dd =>
        exfalso
        apply hex
        unfold entryExists
        rw [hf]
        simp
    unfold safe_move_body
    have hfind2 := find?_push_self hnofind (DirNode.node false [] SubdirList.nil)
    rw [hfind2]
    dsimp only
    rw [if_neg (by simp [SubdirList.find?] :
      ¬((([] : List FileE).any fun g => decide (g.name = m)) ||
        (SubdirList.find? SubdirList.nil m).isSome) = true), if_pos rfl]
    cases hextr : extractNamed files m with
    | mk fo files2 =>
      cases fo with
      | none =>
        dsimp only
        refine ⟨⟨fun x hxn hxm => hxm, ?_, ?_⟩, fun g hg => hg, fun hmem => ?_⟩
        · intro x dd0 h0
          exact ⟨dd0, find?_push_of_some h0 _ _, fun y hy => hy⟩
        · intro x hxn hxm h0
          have hxc : x ≠ cat := fun e => hnofile (e ▸ hxm)
          rw [find?_push_ne hxc]
          exact h0
        · obtain ⟨f2x, files2x, hexx, _, _⟩ := extractNamed_spec hmem
          rw [hexx] at hextr
          injection hextr with h1 h2
          cases h1
      | some f2 =>
        dsimp only
        have hx : extractNamed files m = (some f2, files2) := hextr
        obtain ⟨e1, e2, e3⟩ := extractNamed_eq_some_spec hx
        refine ⟨⟨?_, ?_, ?_⟩, e3, fun _ => ?_⟩
        · intro x hxn hxm
          rw [e2]
          have hne : x ≠ m := by
            intro e
            rw [e] at hxn
            exact hm hxn
          exact (List.mem_erase_of_ne hne).mpr hxm
        · intro x dd0 h0
          have hxc : x ≠ cat := by
            intro e
            rw [e, hnofind] at h0
            cases h0
          exact ⟨dd0, by rw [find?_set_ne hxc]; exact find?_push_of_some h0 _ _,
            fun y hy => hy⟩
        · intro x hxn hxm h0
          have hxc : x ≠ cat := fun e => hnofile (e ▸ hxm)
          rw [find?_set_ne hxc, find?_push_ne hxc]
          exact h0
        · unfold destSkip
          rw [find?_set_self hfind2]
          unfold DirNode.entryNames
          refine List.mem_append_left _ ?_
          rw [← e1]
          exact List.mem_map_of_mem _ (by simp)

theorem RunStats.bump_convErrors (s : RunStats) (o : MoveOutcome) :
    (s.bump o).convErrors = s.convErrors := by cases o <;> rfl

theorem RunStats.bump_conversions (s : RunStats) (o : MoveOutcome) :
    (s.bump o).conversions = s.conversions := by cases o <;> rfl

/-- Conversion errors only accumulate along the per-file loop. -/
theorem processFiles_convErrors_mono :
    ∀ (todo files : List FileE) (subdirs : SubdirList) (stats : RunStats),
      stats.convErrors ≤ (processFiles todo files subdirs stats).2.2.convErrors := by
  intro todo
  induction todo with
  | nil => intro files subdirs stats; exact Nat.le_refl _
  | cons f rest ih =>
    intro files subdirs stats
    conv_rhs => unfold processFiles
    cases hcl : classify f.name with
    | heic =>
      dsimp only
      by_cases hjpg : entryExists files subdirs (splitextBase f.name ++ ".jpg") = true
      · rw [if_pos hjpg]
        calc stats.convErrors
            = (stats.bump (safe_move_run f.name "heic" files subdirs).1).convErrors :=
              (RunStats.bump_convErrors _ _).symm
          _ ≤ _ := ih _ _ _
      · rw [if_neg hjpg]
        by_cases hck : f.convOk = true
        · rw [if_pos hck]
          calc stats.convErrors
              = (stats.addConv.bump
                  (safe_move_run f.name "heic"
                    (files ++ [⟨splitextBase f.name ++ ".jpg", f.content, true⟩])
                    subdirs).1).convErrors := by rw [RunStats.bump_convErrors]; rfl
            _ ≤ _ := ih _ _ _
        · rw [if_neg hck]
          calc stats.convErrors ≤ stats.addConvErr.convErrors := by
                show stats.convErrors ≤ stats.convErrors + 1
                omega
            _ ≤ _ := ih _ _ _
    | mov =>
      dsimp only
      calc stats.convErrors
          = (stats.bump (safe_move_run f.name "mov" files subdirs).1).convErrors :=
            (RunStats.bump_convErrors _ _).symm
        _ ≤ _ := ih _ _ _
    | mp4 =>
      dsimp only
      calc stats.convErrors
          = (stats.bump (safe_move_run f.name "mp4" files subdirs).1).convErrors :=
            (RunStats.bump_convErrors _ _).symm
        _ ≤ _ := ih _ _ _
    | none =>
      dsimp only
      exact ih _ _ _

theorem RunStats.bump_moves_of_ne (s : RunStats) {o : MoveOutcome}
    (h : o ≠ MoveOutcome.moved) : (s.bump o).moves = s.moves := by
  cases o
  · exact absurd rfl h
  · rfl
  · rfl

/-- A move towards an occupied destination returns false without mutating
anything: skip when the destination path exists, failure when the folder
name is a plain file. -/
theorem safe_move_run_of_destSkip (m cat : String) (files : List FileE)
    (subdirs : SubdirList) (h : destSkip m cat files subdirs) :
    safe_move_run m cat files subdirs = (MoveOutcome.skipped, files, subdirs) ∨
    safe_move_run m cat files subdirs = (MoveOutcome.failed, files, subdirs) := by
  unfold destSkip at h
  unfold safe_move_run safe_move
  cases hfind : SubdirList.find? subdirs cat with
  | some dd =>
    rw [hfind] at h
    have hex : entryExists files subdirs cat = true := by
      unfold entryExists
      rw [hfind]
      simp
    rw [if_pos hex]
    unfold safe_move_body
    rw [hfind]
    cases dd with
    | node db dfs dsub =>
      dsimp only
      unfold DirNode.entryNames at h
      have hcoll : ((dfs.any fun g => decide (g.name = m)) ||
          (SubdirList.find? dsub m).isSome) = true := by
        rcases List.mem_append.mp h with h1 | h1
        · rw [any_name_eq_true_of_mem h1]
          rfl
        · rw [find?_isSome_of_mem_names h1]
          simp
      rw [if_pos hcoll]
      exact Or.inl rfl
  | none =>
    rw [hfind] at h
    have hex : entryExists files subdirs cat = true := by
      unfold entryExists
      rw [any_name_eq_true_of_mem h]
      rfl
    rw [if_pos hex]
    unfold safe_move_body
    rw [hfind]
    exact Or.inr rfl

/-- When every pending file is stable, the per-file loop is a no-op: the
state is unchanged and no move or conversion is performed. -/
theorem processFiles_stable_state :
    ∀ (todo files : List FileE) (subdirs : SubdirList) (stats : RunStats),
      (∀ f ∈ todo, classify f.name ≠ Cat.none ∧ stableInName f.name files subdirs) →
      (processFiles todo files subdirs stats).1 = files ∧
      (processFiles todo files subdirs stats).2.1 = subdirs ∧
      (processFiles todo files subdirs stats).2.2.moves = stats.moves ∧
      (processFiles todo files subdirs stats).2.2.conversions = stats.conversions ∧
      (processFiles todo files subdirs stats).2.2.convErrors = stats.convErrors := by
  intro todo
  induction todo with
  | nil => intro files subdirs stats _; exact ⟨rfl, rfl, rfl, rfl, rfl⟩
  | cons f rest ih =>
    intro files subdirs stats hstab
    obtain ⟨hf0, hjpgc, hskip⟩ :
        classify f.name ≠ Cat.none ∧
          (classify f.name = Cat.heic →
            entryExists files subdirs (splitextBase f.name ++ ".jpg") = true) ∧
          destSkip f.name (catFolder (classify f.name)) files subdirs := by
      obtain ⟨h1, h2, h3⟩ := hstab f (List.mem_cons_self f rest)
      exact ⟨h1, h2, h3⟩
    have hrest : ∀ g ∈ rest, classify g.name ≠ Cat.none ∧ stableInName g.name files subdirs :=
      fun g hg => hstab g (List.mem_cons_of_mem _ hg)
    cases hcl : classify f.name with
    | none => exact absurd hcl hf0
    | heic =>
      rw [hcl] at hjpgc hskip
      obtain ⟨o, hne, hr⟩ : ∃ o, o ≠ MoveOutcome.moved ∧
          safe_move_run f.name "heic" files subdirs = (o, files, subdirs) := by
        rcases safe_move_run_of_destSkip f.name "heic" files subdirs hskip with hr | hr
        · exact ⟨_, by decide, hr⟩
        · exact ⟨_, by decide, hr⟩
      have heq : processFiles (f :: rest) files subdirs stats
          = processFiles rest files subdirs (stats.bump o) := by
        conv_lhs => unfold processFiles
        rw [hcl]
        dsimp only
        rw [if_pos (hjpgc rfl), hr]
      rw [heq]
      obtain ⟨k1, k2, k3, k4, k5⟩ := ih files subdirs (stats.bump o) hrest
      exact ⟨k1, k2, by rw [k3, RunStats.bump_moves_of_ne _ hne],
        by rw [k4, RunStats.bump_conversions], by rw [k5, RunStats.bump_convErrors]⟩
    | mov =>
      rw [hcl] at hskip
      obtain ⟨o, hne, hr⟩ : ∃ o, o ≠ MoveOutcome.moved ∧
          safe_move_run f.name "mov" files subdirs = (o, files, subdirs) := by
        rcases safe_move_run_of_destSkip f.name "mov" files subdirs hskip with hr | hr
        · exact ⟨_, by decide, hr⟩
        · exact ⟨_, by decide, hr⟩
      have heq : processFiles (f :: rest) files subdirs stats
          = processFiles rest files subdirs (stats.bump o) := by
        conv_lhs => unfold processFiles
        rw [hcl]
        dsimp only
        rw [hr]
      rw [heq]
      obtain ⟨k1, k2, k3, k4, k5⟩ := ih files subdirs (stats.bump o) hrest
      exact ⟨k1, k2, by rw [k3, RunStats.bump_moves_of_ne _ hne],
        by rw [k4, RunStats.bump_conversions], by rw [k5, RunStats.bump_convErrors]⟩
    | mp4 =>
      rw [hcl] at hskip
      obtain ⟨o, hne, hr⟩ : ∃ o, o ≠ MoveOutcome.moved ∧
          safe_move_run f.name "mp4" files subdirs = (o, files, subdirs) := by
        rcases safe_move_run_of_destSkip f.name "mp4" files subdirs hskip with hr | hr
        · exact ⟨_, by decide, hr⟩
        · exact ⟨_, by decide, hr⟩
      have heq : processFiles (f :: rest) files subdirs stats
          = processFiles rest files subdirs (stats.bump o) := by
        conv_lhs => unfold processFiles
        rw [hcl]
        dsimp only
        rw [hr]
      rw [heq]
      obtain ⟨k1, k2, k3, k4, k5⟩ := ih files subdirs (stats.bump o) hrest
      exact ⟨k1, k2, by rw [k3, RunStats.bump_moves_of_ne _ hne],
        by rw [k4, RunStats.bump_conversions], by rw [k5, RunStats.bump_convErrors]⟩

/-- After a per-file loop with no conversion errors, every remaining target
file in the directory is stable: its destination is occupied (and for HEIC
files the conversion target exists), so a second pass will not touch it. -/
theorem processFiles_run1_stable :
    ∀ (todo files : List FileE) (subdirs : SubdirList) (stats : RunStats),
      (∀ f ∈ todo, classify f.name ≠ Cat.none) →
      (processFiles todo files subdirs stats).2.2.convErrors = stats.convErrors →
      (∀ g ∈ files, classify g.name ≠ Cat.none →
        g.name ∈ todo.map FileE.name ∨ stableInName g.name files subdirs) →
      ∀ g ∈ (processFiles todo files subdirs stats).1, classify g.name ≠ Cat.none →
        stableInName g.name (processFiles todo files subdirs stats).1
          (processFiles todo files subdirs stats).2.1 := by
  intro todo
  induction todo with
  | nil =>
    intro files subdirs stats _ _ hpre g hg hgt
    rcases hpre g hg hgt with hmem | hstab
    · simp at hmem
    · exact hstab
  | cons f rest ih =>
    intro files subdirs stats htgt hce hpre
    have hf0 : classify f.name ≠ Cat.none := htgt f (List.mem_cons_self f rest)
    cases hcl : classify f.name with
    | none => exact absurd hcl hf0
    | heic =>
      by_cases hjpg : entryExists files subdirs (splitextBase f.name ++ ".jpg") = true
      · obtain ⟨hext, hsub, hskipm⟩ :=
          safe_move_run_master f.name "heic" files subdirs
            (by rw [hcl]; exact fun h => Cat.noConfusion h)
        have heq : processFiles (f :: rest) files subdirs stats
            = processFiles rest (safe_move_run f.name "heic" files subdirs).2.1
                (safe_move_run f.name "heic" files subdirs).2.2
                (stats.bump (safe_move_run f.name "heic" files subdirs).1) := by
          conv_lhs => unfold processFiles
          rw [hcl]
          dsimp only
          rw [if_pos hjpg]
        rw [heq] at hce ⊢
        have hce2 := hce.trans
          (RunStats.bump_convErrors stats (safe_move_run f.name "heic" files subdirs).1).symm
        refine ih _ _ _ (fun g hg => htgt g (List.mem_cons_of_mem _ hg)) hce2 ?_
        intro g hg hgt
        rcases hpre g (hsub g hg) hgt with hmem | hstab
        · rw [List.map_cons] at hmem
          rcases List.mem_cons.mp hmem with he | he
          · refine Or.inr ⟨?_, ?_⟩
            · intro hclg
              rw [he]
              exact entryExists_extends hext (classify_append_jpg _) hjpg
            · have hcf : catFolder (classify g.name) = "heic" := by rw [he, hcl]; rfl
              rw [hcf, he]
              exact hskipm (List.mem_map.mpr ⟨g, hsub g hg, he⟩)
          · exact Or.inl he
        · exact Or.inr (stableInName_extends hext hgt hstab)
      · by_cases hck : f.convOk = true
        · obtain ⟨hext, hsub, hskipm⟩ :=
            safe_move_run_master f.name "heic"
              (files ++ [⟨splitextBase f.name ++ ".jpg", f.content, true⟩]) subdirs
              (by rw [hcl]; exact fun h => Cat.noConfusion h)
          have happ : stepExtends files subdirs
              (files ++ [⟨splitextBase f.name ++ ".jpg", f.content, true⟩]) subdirs := by
            refine ⟨?_, fun x dd h => ⟨dd, h, fun y hy => hy⟩, fun x hx hm h => h⟩
            intro x hx hm
            rw [List.map_append]
            exact List.mem_append_left _ hm
          have heq : processFiles (f :: rest) files subdirs stats
              = processFiles rest
                  (safe_move_run f.name "heic"
                    (files ++ [⟨splitextBase f.name ++ ".jpg", f.content, true⟩]) subdirs).2.1
                  (safe_move_run f.name "heic"
                    (files ++ [⟨splitextBase f.name ++ ".jpg", f.content, true⟩]) subdirs).2.2
                  (stats.addConv.bump
                    (safe_move_run f.name "heic"
                      (files ++ [⟨splitextBase f.name ++ ".jpg", f.content, true⟩])
                      subdirs).1) := by
            conv_lhs => unfold processFiles
            rw [hcl]
            dsimp only
            rw [if_neg hjpg, hck, if_pos rfl]
          rw [heq] at hce ⊢
          have hce2 := hce.trans
            (RunStats.bump_convErrors stats.addConv
              (safe_move_run f.name "heic"
                (files ++ [⟨splitextBase f.name ++ ".jpg", f.content, true⟩]) subdirs).1).symm
          refine ih _ _ _ (fun g hg => htgt g (List.mem_cons_of_mem _ hg)) hce2 ?_
          intro g hg hgt
          rcases List.mem_append.mp (hsub g hg) with hgf1 | hgf1
          · rcases hpre g hgf1 hgt with hmem | hstab
            · rw [List.map_cons] at hmem
              rcases List.mem_cons.mp hmem with he | he
              · refine Or.inr ⟨?_, ?_⟩
                · intro hclg
                  rw [he]
                  refine entryExists_extends hext (classify_append_jpg _) ?_
                  unfold entryExists
                  rw [any_name_eq_true_of_mem ?_]
                  · rfl
                  · rw [List.map_append]
                    exact List.mem_append_right _ (by simp)
                · have hcf : catFolder (classify g.name) = "heic" := by rw [he, hcl]; rfl
                  rw [hcf, he]
                  refine hskipm ?_
                  rw [List.map_append]
                  exact List.mem_append_left _ (List.mem_map.mpr ⟨g, hgf1, he⟩)
              · exact Or.inl he
            · exact Or.inr (stableInName_extends (stepExtends_trans happ hext) hgt hstab)
          · exfalso
            have hge : g = ⟨splitextBase f.name ++ ".jpg", f.content, true⟩ := by
              simpa using hgf1
            apply hgt
            rw [hge]
            exact classify_append_jpg _
        · exfalso
          rw [Bool.not_eq_true] at hck
          have heq : processFiles (f :: rest) files subdirs stats
              = processFiles rest files subdirs stats.addConvErr := by
            conv_lhs => unfold processFiles
            rw [hcl]
            dsimp only
            rw [if_neg hjpg, hck, if_neg (by simp : ¬(false = true))]
          rw [heq] at hce
          have hmono := processFiles_convErrors_mono rest files subdirs stats.addConvErr
          have hplus : stats.addConvErr.convErrors = stats.convErrors + 1 := rfl
          omega
    | mov =>
      obtain ⟨hext, hsub, hskipm⟩ :=
        safe_move_run_master f.name "mov" files subdirs
          (by rw [hcl]; exact fun h => Cat.noConfusion h)
      have heq : processFiles (f :: rest) files subdirs stats
          = processFiles rest (safe_move_run f.name "mov" files subdirs).2.1
              (safe_move_run f.name "mov" files subdirs).2.2
              (stats.bump (safe_move_run f.name "mov" files subdirs).1) := by
        conv_lhs => unfold processFiles
        rw [hcl]
      rw [heq] at hce ⊢
      have hce2 := hce.trans
        (RunStats.bump_convErrors stats (safe_move_run f.name "mov" files subdirs).1).symm
      refine ih _ _ _ (fun g hg => htgt g (List.mem_cons_of_mem _ hg)) hce2 ?_
      intro g hg hgt
      rcases hpre g (hsub g hg) hgt with hmem | hstab
      · rw [List.map_cons] at hmem
        rcases List.mem_cons.mp hmem with he | he
        · refine Or.inr ⟨?_, ?_⟩
          · intro hclg
            rw [he] at hclg
            rw [hcl] at hclg
            exact absurd hclg (by decide)
          · have hcf : catFolder (classify g.name) = "mov" := by rw [he, hcl]; rfl
            rw [hcf, he]
            exact hskipm (List.mem_map.mpr ⟨g, hsub g hg, he⟩)
        · exact Or.inl he
      · exact Or.inr (stableInName_extends hext hgt hstab)
    | mp4 =>
      obtain ⟨hext, hsub, hskipm⟩ :=
        safe_move_run_master f.name "mp4" files subdirs
          (by rw [hcl]; exact fun h => Cat.noConfusion h)
      have heq : processFiles (f :: rest) files subdirs stats
          = processFiles rest (safe_move_run f.name "mp4" files subdirs).2.1
              (safe_move_run f.name "mp4" files subdirs).2.2
              (stats.bump (safe_move_run f.name "mp4" files subdirs).1) := by
        conv_lhs => unfold processFiles
        rw [hcl]
      rw [heq] at hce ⊢
      have hce2 := hce.trans
        (RunStats.bump_convErrors stats (safe_move_run f.name "mp4" files subdirs).1).symm
      refine ih _ _ _ (fun g hg => htgt g (List.mem_cons_of_mem _ hg)) hce2 ?_
      intro g hg hgt
      rcases hpre g (hsub g hg) hgt with hmem | hstab
      · rw [List.map_cons] at hmem
        rcases List.mem_cons.mp hmem with he | he
        · refine Or.inr ⟨?_, ?_⟩
          · intro hclg
            rw [he] at hclg
            rw [hcl] at hclg
            exact absurd hclg (by decide)
          · have hcf : catFolder (classify g.name) = "mp4" := by rw [he, hcl]; rfl
            rw [hcf, he]
            exact hskipm (List.mem_map.mpr ⟨g, hsub g hg, he⟩)
        · exact Or.inl he
      · exact Or.inr (stableInName_extends hext hgt hstab)

theorem mem_toList_set {l : SubdirList} {m : String} {d2 : DirNode}
    {p : String × DirNode} (h : p ∈ (l.set m d2).toList) :
    p ∈ l.toList ∨ p.1 = m := by
  induction l using SubdirList.indOn with
  | h0 => exact Or.inl h
  | h1 n c rest ih =>
    unfold SubdirList.set at h
    by_cases hn : n = m
    · rw [if_pos hn] at h
      unfold SubdirList.toList at h
      rcases List.mem_cons.mp h with he | he
      · exact Or.inr (by rw [he, hn])
      · exact Or.inl (List.mem_cons_of_mem _ he)
    · rw [if_neg hn] at h
      unfold SubdirList.toList at h
      rcases List.mem_cons.mp h with he | he
      · exact Or.inl (by rw [he]; exact List.mem_cons_self _ _)
      · rcases ih he with h2 | h2
        · exact Or.inl (List.mem_cons_of_mem _ h2)
        · exact Or.inr h2

theorem mem_toList_push {l : SubdirList} {m : String} {d : DirNode}
    {p : String × DirNode} (h : p ∈ (l.push m d).toList) :
    p ∈ l.toList ∨ p.1 = m := by
  induction l using SubdirList.indOn with
  | h0 =>
    unfold SubdirList.push SubdirList.toList at h
    rcases List.mem_cons.mp h with he | he
    · exact Or.inr (by rw [he])
    · simp [SubdirList.toList] at he
  | h1 n c rest ih =>
    unfold SubdirList.push SubdirList.toList at h
    rcases List.mem_cons.mp h with he | he
    · exact Or.inl (by rw [he]; exact List.mem_cons_self _ _)
    · rcases ih he with h2 | h2
      · exact Or.inl (List.mem_cons_of_mem _ h2)
      · exact Or.inr h2

/-- The move step only touches, or creates, the destination subfolder. -/
theorem safe_move_run_entries (m cat : String) (files : List FileE)
    (subdirs : SubdirList) :
    ∀ p ∈ (safe_move_run m cat files subdirs).2.2.toList,
      p ∈ subdirs.toList ∨ p.1 = cat := by
  unfold safe_move_run safe_move
  by_cases hex : entryExists files subdirs cat = true
  · rw [if_pos hex]
    unfold safe_move_body
    cases hfind : SubdirList.find? subdirs cat with
    | none => exact fun p hp => Or.inl hp
    | some dd =>
      cases dd with
      | node db dfs dsub =>
        dsimp only
        by_cases hcoll : ((dfs.any fun g => decide (g.name = m)) ||
            (SubdirList.find? dsub m).isSome) = true
        · rw [if_pos hcoll]
          exact fun p hp => Or.inl hp
        · rw [if_neg hcoll, if_pos rfl]
          cases hextr : extractNamed files m with
          | mk fo files2 =>
            cases fo with
            | none => exact fun p hp => Or.inl hp
            | some f2 =>
              dsimp only
              exact fun p hp => mem_toList_set hp
  · rw [if_neg hex, if_pos rfl]
    have hnofind : SubdirList.find? subdirs cat = Option.none := by
      cases hf : SubdirList.find? subdirs cat with
      | none => rfl
      | some dd =>
        exfalso
        apply hex
        unfold entryExists
        rw [hf]
        simp
    unfold safe_move_body
    rw [find?_push_self hnofind (DirNode.node false [] SubdirList.nil)]
    dsimp only
    rw [if_neg (by simp [SubdirList.find?] :
      ¬((([] : List FileE).any fun g => decide (g.name = m)) ||
        (SubdirList.find? SubdirList.nil m).isSome) = true), if_pos rfl]
    cases hextr : extractNamed files m with
    | mk fo files2 =>
      cases fo with
      | none =>
        dsimp only
        exact fun p hp => mem_toList_push hp
      | some f2 =>
        dsimp only
        intro p hp
        rcases mem_toList_set hp with h2 | h2
        · exact mem_toList_push h2
        · exact Or.inr h2

/-- The per-file loop only touches, or creates, the three category
subfolders. -/
theorem processFiles_entries :
    ∀ (todo files : List FileE) (subdirs : SubdirList) (stats : RunStats),
      ∀ p ∈ (processFiles todo files subdirs stats).2.1.toList,
        p ∈ subdirs.toList ∨ p.1 = "heic" ∨ p.1 = "mov" ∨ p.1 = "mp4" := by
  intro todo
  induction todo with
  | nil => intro files subdirs stats p hp; exact Or.inl hp
  | cons f rest ih =>
    intro files subdirs stats p hp
    revert hp
    conv_lhs => unfold processFiles
    cases hcl : classify f.name with
    | none =>
      dsimp only
      intro hp
      exact ih _ _ _ p hp
    | heic =>
      dsimp only
      by_cases hjpg : entryExists files subdirs (splitextBase f.name ++ ".jpg") = true
      · rw [if_pos hjpg]
        intro hp
        rcases ih _ _ _ p hp with h2 | h2
        · rcases safe_move_run_entries f.name "heic" files subdirs p h2 with h3 | h3
          · exact Or.inl h3
          · exact Or.inr (Or.inl h3)
        · exact Or.inr h2
      · rw [if_neg hjpg]
        by_cases hck : f.convOk = true
        · rw [if_pos hck]
          intro hp
          rcases ih _ _ _ p hp with h2 | h2
          · rcases safe_move_run_entries f.name "heic"
                (files ++ [⟨splitextBase f.name ++ ".jpg", f.content, true⟩]) subdirs p h2
              with h3 | h3
            · exact Or.inl h3
            · exact Or.inr (Or.inl h3)
          · exact Or.inr h2
        · rw [if_neg hck]
          intro hp
          exact ih _ _ _ p hp
    | mov =>
      dsimp only
      intro hp
      rcases ih _ _ _ p hp with h2 | h2
      · rcases safe_move_run_entries f.name "mov" files subdirs p h2 with h3 | h3
        · exact Or.inl h3
        · exact Or.inr (Or.inr (Or.inl h3))
      · exact Or.inr h2
    | mp4 =>
      dsimp only
      intro hp
      rcases ih _ _ _ p hp with h2 | h2
      · rcases safe_move_run_entries f.name "mp4" files subdirs p h2 with h3 | h3
        · exact Or.inl h3
        · exact Or.inr (Or.inr (Or.inr h3))
      · exact Or.inr h2

theorem mem_toList_processSubdirs {l : SubdirList} {p : String × DirNode}
    (h : p ∈ (processSubdirs l).1.toList) :
    ∃ c, (p.1, c) ∈ l.toList ∧ p.2 = (process_directory p.1 c).1 := by
  induction l using SubdirList.indOn with
  | h0 => simp [processSubdirs, SubdirList.toList] at h
  | h1 n c rest ih =>
    unfold processSubdirs at h
    unfold SubdirList.toList at h
    rcases List.mem_cons.mp h with he | he
    · refine ⟨c, ?_, ?_⟩
      · rw [he]
        exact List.mem_cons_self _ _
      · rw [he]
    · obtain ⟨c2, hc2, he2⟩ := ih he
      exact ⟨c2, List.mem_cons_of_mem _ hc2, he2⟩

theorem processSubdirs_convErrors_entries :
    ∀ (l : SubdirList), (processSubdirs l).2.convErrors = 0 →
      ∀ p ∈ l.toList, (process_directory p.1 p.2).2.convErrors = 0 := by
  intro l
  induction l using SubdirList.indOn with
  | h0 => intro _ p hp; simp [SubdirList.toList] at hp
  | h1 n c rest ih =>
    intro h p hp
    have h2 : (process_directory n c).2.convErrors
        + (processSubdirs rest).2.convErrors = 0 := by
      unfold processSubdirs at h
      dsimp only at h
      rw [RunStats.add_convErrors] at h
      exact h
    unfold SubdirList.toList at hp
    rcases List.mem_cons.mp hp with he | he
    · rw [he]
      dsimp only
      omega
    · exact ih (by omega) p he

theorem processSubdirs_stable (l : SubdirList)
    (h : ∀ p ∈ l.toList, (process_directory p.1 p.2).1 = p.2 ∧
      (process_directory p.1 p.2).2.moves = 0 ∧
      (process_directory p.1 p.2).2.conversions = 0) :
    (processSubdirs l).1 = l ∧ (processSubdirs l).2.moves = 0 ∧
      (processSubdirs l).2.conversions = 0 := by
  induction l using SubdirList.indOn with
  | h0 => exact ⟨rfl, rfl, rfl⟩
  | h1 n c rest ih =>
    obtain ⟨h1, h2, h3⟩ := h (n, c) (List.mem_cons_self _ _)
    obtain ⟨k1, k2, k3⟩ := ih (fun p hp => h p (List.mem_cons_of_mem _ hp))
    dsimp only at h1 h2 h3
    unfold processSubdirs
    dsimp only
    refine ⟨?_, ?_, ?_⟩
    · rw [h1, k1]
    · rw [RunStats.add_moves, h2, k2]
    · rw [RunStats.add_conversions, h3, k3]

/-- A reserved-named directory is returned unchanged with zero tallies. -/
theorem process_directory_reserved (name : String) (d : DirNode)
    (h : reserved name = true) : process_directory name d = (d, RunStats.zero) := by
  cases d with
  | node denied files subdirs =>
    unfold process_directory
    rw [if_pos h]

/-- A directory whose listing is denied is returned unchanged with zero
tallies. -/
theorem process_directory_denied (name : String) (files : List FileE)
    (subdirs : SubdirList) :
    process_directory name (DirNode.node true files subdirs)
      = (DirNode.node true files subdirs, RunStats.zero) := by
  unfold process_directory
  by_cases h : reserved name = true
  · rw [if_pos h]
  · rw [if_neg h, if_pos rfl]

/-- Unfolding equation for a visit of an accessible, non-reserved directory. -/
theorem process_directory_main_eq (name : String) (files : List FileE)
    (subdirs : SubdirList) (hres : reserved name = false) :
    process_directory name (DirNode.node false files subdirs)
      = (if files.countP (fun f => classify f.name == Cat.heic)
            + files.countP (fun f => classify f.name == Cat.mov)
            + files.countP (fun f => classify f.name == Cat.mp4) = 0 then
          (DirNode.node false files (processSubdirs subdirs).1, (processSubdirs subdirs).2)
        else
          (DirNode.node false
             (processFiles (files.filter (fun f => classify f.name != Cat.none)) files
               (processSubdirs subdirs).1 RunStats.zero).1
             (processFiles (files.filter (fun f => classify f.name != Cat.none)) files
               (processSubdirs subdirs).1 RunStats.zero).2.1,
           (processSubdirs subdirs).2
             + (processFiles (files.filter (fun f => classify f.name != Cat.none)) files
                 (processSubdirs subdirs).1 RunStats.zero).2.2
             + verifyStats
                 (processFiles (files.filter (fun f => classify f.name != Cat.none)) files
                   (processSubdirs subdirs).1 RunStats.zero).1
                 (processFiles (files.filter (fun f => classify f.name != Cat.none)) files
                   (processSubdirs subdirs).1 RunStats.zero).2.1
                 (files.countP (fun f => classify f.name == Cat.heic))
                 (files.countP (fun f => classify f.name == Cat.mov))
                 (files.countP (fun f => classify f.name == Cat.mp4)))) := by
  conv_lhs => unfold process_directory
  rw [hres]
  rw [if_neg (by simp : ¬(false = true)), if_neg (by simp : ¬(false = true))]

/-- The verification step never records a move, a conversion or a conversion
error. -/
theorem verifyStats_fields (a : List FileE) (b : SubdirList) (x y z : Nat) :
    (verifyStats a b x y z).moves = 0 ∧ (verifyStats a b x y z).conversions = 0 ∧
      (verifyStats a b x y z).convErrors = 0 := by
  unfold verifyStats
  split
  · exact ⟨rfl, rfl, rfl⟩
  · split
    · exact ⟨rfl, rfl, rfl⟩
    · split
      · exact ⟨rfl, rfl, rfl⟩
      · split
        · exact ⟨rfl, rfl, rfl⟩
        · exact ⟨rfl, rfl, rfl⟩

/-- Rerunning the organizer on the output of a run that had no conversion
errors changes nothing: the tree is already in its final shape and no move
or conversion happens in the second pass. -/
def IdemAfter (name : String) (d : DirNode) : Prop :=
  (process_directory name d).2.convErrors = 0 →
    (process_directory name (process_directory name d).1).1
        = (process_directory name d).1 ∧
    (process_directory name (process_directory name d).1).2.moves = 0 ∧
    (process_directory name (process_directory name d).1).2.conversions = 0

/-- `IdemAfter` under every base name. -/
def DirIdem (d : DirNode) : Prop := ∀ name, IdemAfter name d

/-- `DirIdem` for every listed subdirectory. -/
def SubIdem (l : SubdirList) : Prop := ∀ p ∈ l.toList, DirIdem p.2

theorem processTree_idem : ∀ d : DirNode, DirIdem d := by
  intro d
  refine @DirNode.rec DirIdem SubIdem ?_ ?_ ?_ d
  · intro denied files subdirs ihQ
    intro name hce
    by_cases hresT : reserved name = true
    · rw [process_directory_reserved name _ hresT]
      dsimp only
      rw [process_directory_reserved name _ hresT]
      exact ⟨rfl, rfl, rfl⟩
    · cases denied with
      | true =>
        rw [process_directory_denied] at hce ⊢
        dsimp only
        rw [process_directory_denied]
        exact ⟨rfl, rfl, rfl⟩
      | false =>
        rw [Bool.not_eq_true] at hresT
        rw [process_directory_main_eq name files subdirs hresT] at hce ⊢
        by_cases hz : files.countP (fun f => classify f.name == Cat.heic)
          + files.countP (fun f => classify f.name == Cat.mov)
          + files.countP (fun f => classify f.name == Cat.mp4) = 0
        · rw [if_pos hz] at hce ⊢
          dsimp only at hce ⊢
          have hchild : ∀ p ∈ (processSubdirs subdirs).1.toList,
              (process_directory p.1 p.2).1 = p.2 ∧
              (process_directory p.1 p.2).2.moves = 0 ∧
              (process_directory p.1 p.2).2.conversions = 0 := by
            intro p hp
            obtain ⟨c, hcmem, hpc⟩ := mem_toList_processSubdirs hp
            have hcce := processSubdirs_convErrors_entries subdirs hce (p.1, c) hcmem
            obtain ⟨w1, w2, w3⟩ := ihQ (p.1, c) hcmem p.1 hcce
            rw [hpc]
            exact ⟨w1, w2, w3⟩
          obtain ⟨q1, q2, q3⟩ := processSubdirs_stable _ hchild
          rw [process_directory_main_eq name files (processSubdirs subdirs).1 hresT]
          rw [if_pos hz]
          dsimp only
          exact ⟨by rw [q1], q2, q3⟩
        · rw [if_neg hz] at hce ⊢
          dsimp only at hce ⊢
          rw [RunStats.add_convErrors, RunStats.add_convErrors] at hce
          have hs1 : (processSubdirs subdirs).2.convErrors = 0 := by omega
          have hs2 : (processFiles (files.filter (fun f => classify f.name != Cat.none)) files (processSubdirs subdirs).1 RunStats.zero).2.2.convErrors = 0 := by omega
          have hstab := processFiles_run1_stable
            (files.filter (fun f => classify f.name != Cat.none)) files (processSubdirs subdirs).1 RunStats.zero
            (fun g hg => by simpa using (List.mem_filter.mp hg).2)
            hs2
            (fun g hg hgt => Or.inl (List.mem_map.mpr
              ⟨g, List.mem_filter.mpr ⟨hg, by simpa using hgt⟩, rfl⟩))
          have hchild0 : ∀ p ∈ (processSubdirs subdirs).1.toList,
              (process_directory p.1 p.2).1 = p.2 ∧
              (process_directory p.1 p.2).2.moves = 0 ∧
              (process_directory p.1 p.2).2.conversions = 0 := by
            intro p hp
            obtain ⟨c, hcmem, hpc⟩ := mem_toList_processSubdirs hp
            have hcce := processSubdirs_convErrors_entries subdirs hs1 (p.1, c) hcmem
            obtain ⟨w1, w2, w3⟩ := ihQ (p.1, c) hcmem p.1 hcce
            rw [hpc]
            exact ⟨w1, w2, w3⟩
          have hchild2 : ∀ p ∈ (processFiles (files.filter (fun f => classify f.name != Cat.none)) files (processSubdirs subdirs).1 RunStats.zero).2.1.toList,
              (process_directory p.1 p.2).1 = p.2 ∧
              (process_directory p.1 p.2).2.moves = 0 ∧
              (process_directory p.1 p.2).2.conversions = 0 := by
            intro p hp
            rcases processFiles_entries _ _ _ _ p hp with h2 | h2
            · exact hchild0 p h2
            · have hr : reserved p.1 = true := by
                rcases h2 with h3 | h3 | h3 <;> rw [h3] <;> decide
              rw [process_directory_reserved p.1 p.2 hr]
              exact ⟨rfl, rfl, rfl⟩
          obtain ⟨q1, q2, q3⟩ := processSubdirs_stable _ hchild2
          rw [process_directory_main_eq name (processFiles (files.filter (fun f => classify f.name != Cat.none)) files (processSubdirs subdirs).1 RunStats.zero).1 (processFiles (files.filter (fun f => classify f.name != Cat.none)) files (processSubdirs subdirs).1 RunStats.zero).2.1 hresT]
          by_cases hz2 : (processFiles (files.filter (fun f => classify f.name != Cat.none)) files (processSubdirs subdirs).1 RunStats.zero).1.countP (fun f => classify f.name == Cat.heic)
          + (processFiles (files.filter (fun f => classify f.name != Cat.none)) files (processSubdirs subdirs).1 RunStats.zero).1.countP (fun f => classify f.name == Cat.mov)
          + (processFiles (files.filter (fun f => classify f.name != Cat.none)) files (processSubdirs subdirs).1 RunStats.zero).1.countP (fun f => classify f.name == Cat.mp4) = 0
          · rw [if_pos hz2]
            dsimp only
            exact ⟨by rw [q1], q2, q3⟩
          · rw [if_neg hz2]
            dsimp only
            rw [q1]
            obtain ⟨w1, w2, w3, w4, w5⟩ := processFiles_stable_state
              ((processFiles (files.filter (fun f => classify f.name != Cat.none)) files (processSubdirs subdirs).1 RunStats.zero).1.filter (fun f => classify f.name != Cat.none)) (processFiles (files.filter (fun f => classify f.name != Cat.none)) files (processSubdirs subdirs).1 RunStats.zero).1 (processFiles (files.filter (fun f => classify f.name != Cat.none)) files (processSubdirs subdirs).1 RunStats.zero).2.1 RunStats.zero
              (fun f hf => ⟨by simpa using (List.mem_filter.mp hf).2,
                hstab f (List.mem_filter.mp hf).1
                  (by simpa using (List.mem_filter.mp hf).2)⟩)
            refine ⟨?_, ?_, ?_⟩
            · rw [w1, w2]
            · rw [RunStats.add_moves, RunStats.add_moves, q2, w3,
                (verifyStats_fields _ _ _ _ _).1]
              rfl
            · rw [RunStats.add_conversions, RunStats.add_conversions, q3, w4,
                (verifyStats_fields _ _ _ _ _).2.1]
              rfl
  · intro p hp
    simp [SubdirList.toList] at hp
  · intro n d2 rest ihP ihQ
    intro p hp
    unfold SubdirList.toList at hp
    rcases List.mem_cons.mp hp with he | he
    · rw [he]
      exact ihP
    · exact ihQ p he

/-- C3: running `process_directory` twice on the same tree is idempotent:
if the first run had no conversion errors (the only failure the model can
inject, so the first run fully succeeded), the second run performs no
additional moves or conversions and leaves the tree unchanged. -/
theorem C3_theorem (name : String) (d : DirNode)
    (h : (process_directory name d).2.convErrors = 0) :
    (process_directory name (process_directory name d).1).1
        = (process_directory name d).1 ∧
    (process_directory name (process_directory name d).1).2.moves = 0 ∧
    (process_directory name (process_directory name d).1).2.conversions = 0 :=
  processTree_idem d name h

/-- Witness for C3 on a concrete tree with one HEIC and one MOV file. -/
theorem C3_witness :
    (process_directory "root"
        (DirNode.node false [⟨"a.heic", 0, true⟩, ⟨"b.mov", 1, true⟩]
          SubdirList.nil)).2.convErrors = 0 ∧
    ((process_directory "root"
        (process_directory "root"
          (DirNode.node false [⟨"a.heic", 0, true⟩, ⟨"b.mov", 1, true⟩]
            SubdirList.nil)).1).1
      = (process_directory "root"
          (DirNode.node false [⟨"a.heic", 0, true⟩, ⟨"b.mov", 1, true⟩]
            SubdirList.nil)).1 ∧
    (process_directory "root"
        (process_directory "root"
          (DirNode.node false [⟨"a.heic", 0, true⟩, ⟨"b.mov", 1, true⟩]
            SubdirList.nil)).1).2.moves = 0 ∧
    (process_directory "root"
        (process_directory "root"
          (DirNode.node false [⟨"a.heic", 0, true⟩, ⟨"b.mov", 1, true⟩]
            SubdirList.nil)).1).2.conversions = 0) :=
  ⟨by decide,
   C3_theorem "root"
     (DirNode.node false [⟨"a.heic", 0, true⟩, ⟨"b.mov", 1, true⟩]
       SubdirList.nil)
     (by decide)⟩

end PhotoDir
